import Mathlib

/-! Clustering playground: K-Means and DBSCAN engine.

A shallow embedding of the clustering engine of `src/clustering_playground.jsx`
(the functions `rng`, `initCentroids`, `assignClusters`, `nearestCentroid`,
`recomputeCentroids`, `resetKMeans`, `stepKMeans` and `runDBSCAN`) together with
theorems about it.

Modelling conventions.
* JavaScript numbers that hold coordinates and distances are exact rationals `ℚ`;
  `Infinity` is `none` in an `Option ℚ`.
* Array indices, counters and the 32-bit generator state are natural numbers; the
  `>>> 0` conversions are explicit reductions modulo `2^32`.
* `Math.floor(r() * pts.length)` is taken in exact arithmetic.
* An operation that throws a `TypeError` in the source returns `none`.
* React state is an explicit record; a handler reads the state of the render it was
  created in and returns the next state.
-/

namespace ClusteringPlayground

/-! ## Data model -/

/-- A point `Pt` of the source: its position and its optional centroid index `cid`.
The optional fields `label` and `visited` of the source type are never read or written
by the engine and are left out. -/
structure Pt where
  x : ℚ
  y : ℚ
  cid : Option Nat := none
deriving DecidableEq

/-- A centroid of the source: its position and its display colour. -/
structure Centroid where
  x : ℚ
  y : ℚ
  color : String
deriving DecidableEq

/-- The palette `colors` of the source. -/
def colors : List String :=
  ["#ef4444", "#10b981", "#3b82f6", "#f59e0b", "#8b5cf6", "#ec4899"]

/-! ## The linear congruential generator `rng` -/

/-- The initial generator state `seed >>> 0`. -/
def rngInit (seed : Int) : Nat := (seed % 4294967296).toNat

/-- One state update `s = (1664525 * s + 1013904223) >>> 0`. The product stays below
`2^53`, so the source computes it exactly. -/
def rngNext (s : Nat) : Nat := (1664525 * s + 1013904223) % 4294967296

/-- The value `(s & 0xfffffff) / 0xfffffff` returned for the (already updated) state. -/
def rngOut (s : Nat) : ℚ := ((s % 268435456 : Nat) : ℚ) / 268435455

/-! ## K-Means -/

/-- The placeholder `{ x: 200 + i * 120, y: 200 + i * 40 }` of `initCentroids`. -/
def placeholder (i : Nat) : Pt := { x := 200 + (i : ℚ) * 120, y := 200 + (i : ℚ) * 40 }

/-- The index `Math.floor(r * pts.length)` drawn in `initCentroids`. -/
def drawIndex (r : ℚ) (len : Nat) : Nat := (Rat.floor (r * (len : ℚ))).toNat

/-- The body of the loop of `initCentroids`: `n` iterations remain, `i` is the loop
counter and `s` the generator state. Each iteration advances the generator, reads
`pts[Math.floor(r() * pts.length)]`, falls back to the placeholder when that is
`undefined`, and appends a centroid. -/
def initLoop (pts : List Pt) : Nat → Nat → Nat → List Centroid
  | 0, _, _ => []
  | n + 1, i, s =>
    let s1 := rngNext s
    let p := (pts[drawIndex (rngOut s1) pts.length]?).getD (placeholder i)
    { x := p.x, y := p.y, color := colors.getD (i % colors.length) "" } ::
      initLoop pts n (i + 1) s1

/-- The function `initCentroids(pts, kk)`, with the component state `seed` made a
parameter; the generator is `rng(seed + 42)`. -/
def initCentroids (seed : Int) (pts : List Pt) (kk : Nat) : List Centroid :=
  initLoop pts kk 0 (rngInit (seed + 42))

/-- The squared distance `(p.x - c.x) ** 2 + (p.y - c.y) ** 2` of `nearestCentroid`. -/
def centDist (p : Pt) (c : Centroid) : ℚ := (p.x - c.x) ^ 2 + (p.y - c.y) ^ 2

/-- The test `d < bestD`, where `bestD` is `Infinity` (`none`) or a number. -/
def ltBest (d : ℚ) : Option ℚ → Bool
  | none => true
  | some b => decide (d < b)

/-- The loop of `nearestCentroid` over the centroids that remain, with the loop
counter `i` and the running `best`, `bestD`. -/
def nearestLoop (p : Pt) : List Centroid → Nat → Nat → Option ℚ → Nat
  | [], _, best, _ => best
  | c :: cs, i, best, bestD =>
    if ltBest (centDist p c) bestD then nearestLoop p cs (i + 1) i (some (centDist p c))
    else nearestLoop p cs (i + 1) best bestD

/-- The function `nearestCentroid(p, cents)`. -/
def nearestCentroid (p : Pt) (cents : List Centroid) : Nat :=
  nearestLoop p cents 0 0 none

/-- The React state the K-Means engine reads and writes. -/
structure KMState where
  points : List Pt
  centroids : List Centroid
  prevCentroids : Option (List Centroid)
  stepNum : Nat
  auto : Bool
  k : Nat
  seed : Int
deriving DecidableEq

/-- The function `assignClusters()`: every point gets `cid = nearestCentroid(p, centroids)`
for the `centroids` of the state the handler was created in. -/
def assignClusters (s : KMState) : KMState :=
  { s with points := s.points.map fun p => { p with cid := some (nearestCentroid p s.centroids) } }

/-- An accumulator `{ x, y, n }` of `recomputeCentroids`. -/
structure Acc3 where
  x : ℚ
  y : ℚ
  n : Nat
deriving DecidableEq

/-- The loop `for (const p of points)` of `recomputeCentroids`: a point without `cid`
is skipped; `sums[p.cid]` being `undefined` throws. -/
def accumulate : List Pt → List Acc3 → Option (List Acc3)
  | [], sums => some sums
  | p :: ps, sums =>
    match p.cid with
    | none => accumulate ps sums
    | some c =>
      match sums[c]? with
      | none => none
      | some a => accumulate ps (sums.set c { x := a.x + p.x, y := a.y + p.y, n := a.n + 1 })

/-- The element function of the `centroids.map` call of `recomputeCentroids`: when
`sums[i].n` is non-zero the centroid keeps its colour and moves to `sums[i].x / sums[i].n`,
`sums[i].y / sums[i].n`; otherwise it is returned as it is. -/
def moveCentroid (c : Centroid) (a : Acc3) : Centroid :=
  if a.n ≠ 0 then { c with x := a.x / (a.n : ℚ), y := a.y / (a.n : ℚ) } else c

/-- The list `next` of `recomputeCentroids`; `sums` has one entry per centroid. -/
def nextCentroids (centroids : List Centroid) (points : List Pt) : Option (List Centroid) :=
  (accumulate points (List.replicate centroids.length { x := 0, y := 0, n := 0 })).map
    fun sums => List.zipWith moveCentroid centroids sums

/-- The function `recomputeCentroids()`: `prevCentroids` becomes a copy of the
centroids and `centroids` becomes `next`. -/
def recomputeCentroids (s : KMState) : Option KMState :=
  (nextCentroids s.centroids s.points).map fun next =>
    { s with prevCentroids := some s.centroids, centroids := next }

/-- The function `stepKMeans()`: `next = n + 1`; Assign when `next % 2 === 1`, Update
otherwise; `stepNum` becomes `next`. An exception in the phase leaves no new state. -/
def stepKMeans (s : KMState) : Option KMState :=
  if (s.stepNum + 1) % 2 = 1 then
    some { assignClusters s with stepNum := s.stepNum + 1 }
  else
    (recomputeCentroids s).map fun t => { t with stepNum := s.stepNum + 1 }

/-- The function `resetKMeans()`. Its own `assignClusters()` call still reads the
centroids of the state the handler was created in. -/
def resetKMeans (s : KMState) : KMState :=
  { s with
    centroids := initCentroids s.seed s.points s.k
    prevCentroids := none
    auto := false
    stepNum := 0
    points := (assignClusters s).points }

/-! ## DBSCAN -/

/-- The local function `dist2` of `runDBSCAN`. -/
def dist2 (a b : Pt) : ℚ := (a.x - b.x) ^ 2 + (a.y - b.y) ^ 2

/-- The statement `neigh[i].push(v)`. -/
def pushAt (neigh : List (List Nat)) (i v : Nat) : List (List Nat) :=
  neigh.set i (neigh.getD i [] ++ [v])

/-- The body of the pair loop: `if (dist2(points[i], points[j]) <= eps2)` then
`neigh[i].push(j); neigh[j].push(i)`. -/
def linkStep (pts : List Pt) (eps2 : ℚ) (i : Nat) (neigh : List (List Nat)) (j : Nat) :
    List (List Nat) :=
  match pts[i]?, pts[j]? with
  | some a, some b => if dist2 a b ≤ eps2 then pushAt (pushAt neigh i j) j i else neigh
  | _, _ => neigh

/-- The inner loop `for (let j = i + 1; j < n; j++)` for one `i`. -/
def linkRow (pts : List Pt) (eps2 : ℚ) (neigh : List (List Nat)) (i : Nat) : List (List Nat) :=
  (List.range' (i + 1) (pts.length - (i + 1))).foldl (linkStep pts eps2 i) neigh

/-- The neighbour lists `neigh` that `runDBSCAN` builds, with `eps2 = eps * eps`. -/
def buildNeigh (pts : List Pt) (eps : ℚ) : List (List Nat) :=
  (List.range pts.length).foldl (linkRow pts (eps * eps)) (List.replicate pts.length [])

/-- The array `core` of `runDBSCAN`: `core[i] = (neigh[i].length + 1) >= minPts`. -/
def coreFlags (neigh : List (List Nat)) (minPts : Nat) : List Bool :=
  neigh.map fun l => decide (l.length + 1 ≥ minPts)

/-- The sentinel `-99` of an unvisited label. -/
def unvisited : Int := -99

/-- The loop `for (const nb of neigh[p])`: an unvisited neighbour gets the label `cid`
and, when it is core, is pushed on the queue. -/
def visitNeighbours (core : List Bool) (cid : Int) :
    List Nat → List Int × List Nat → List Int × List Nat
  | [], st => st
  | nb :: nbs, (labels, q) =>
    if labels[nb]? = some unvisited then
      visitNeighbours core cid nbs
        (labels.set nb cid, if core.getD nb false then q ++ [nb] else q)
    else visitNeighbours core cid nbs (labels, q)

/-- The loop `for (let qi = 0; qi < q.length; qi++)` over the growing queue, bounded by
`fuel` iterations; `none` when the bound is reached before the queue is exhausted. -/
def expandQueue (neigh : List (List Nat)) (core : List Bool) (cid : Int) :
    Nat → List Int → List Nat → Nat → Option (List Int)
  | 0, _, _, _ => none
  | fuel + 1, labels, q, qi =>
    match q[qi]? with
    | none => some labels
    | some p =>
      let st := visitNeighbours core cid (neigh.getD p []) (labels, q)
      expandQueue neigh core cid fuel st.1 st.2 (qi + 1)

/-- The labelling loop `for (let i = 0; i < n; i++)` over the indices that remain, with
the running `labels` and `cid`. -/
def labelLoop (neigh : List (List Nat)) (core : List Bool) (fuel : Nat) :
    List Nat → List Int × Nat → Option (List Int × Nat)
  | [], st => some st
  | i :: is, (labels, cid) =>
    if labels[i]? ≠ some unvisited then labelLoop neigh core fuel is (labels, cid)
    else if !(core.getD i false) then labelLoop neigh core fuel is (labels.set i (-1), cid)
    else
      match expandQueue neigh core cid fuel (labels.set i cid) [i] 0 with
      | none => none
      | some labels1 => labelLoop neigh core fuel is (labels1, cid + 1)

/-- The value `{ labels, core }` stored by `runDBSCAN`. -/
structure DbscanResult where
  labels : List Int
  core : List Bool
deriving DecidableEq

/-- The function `runDBSCAN()` on the state `points`, `eps`, `minPts`. A queue holds
each point at most once, so `points.length + 1` iterations bound every expansion. -/
def runDBSCAN (pts : List Pt) (eps : ℚ) (minPts : Nat) : Option DbscanResult :=
  let neigh := buildNeigh pts eps
  let core := coreFlags neigh minPts
  (labelLoop neigh core (pts.length + 1) (List.range pts.length)
      (List.replicate pts.length unvisited, 0)).map
    fun st => { labels := st.1, core := core }


/-! ## Scenario A of the specification -/

/-- The point set `(0,0), (0,1), (100,100)` of Scenario A. -/
def scenarioAPoints : List Pt :=
  [{ x := 0, y := 0 }, { x := 0, y := 1 }, { x := 100, y := 100 }]

/-- The state of Scenario A for a seed: `K = 2`, the centroids as initialised on mount. -/
def scenarioAState (seed : Int) : KMState :=
  { points := scenarioAPoints
    centroids := initCentroids seed scenarioAPoints 2
    prevCentroids := none
    stepNum := 0
    auto := false
    k := 2
    seed := seed }

/-- The `cid` of the three points after Reset followed by one Assign. -/
def scenarioACids (seed : Int) : List (Option Nat) :=
  (assignClusters (resetKMeans (scenarioAState seed))).points.map fun p => p.cid

/-- The outcome Scenario A asks for: the two near points share a `cid` and the far point
has another one. -/
def ScenarioAHolds (seed : Int) : Prop :=
  ∃ a b : Nat, scenarioACids seed = [some a, some a, some b] ∧ a ≠ b

/-- The centroid lies on one of the two near points of Scenario A. -/
def OnNearPoint (c : Centroid) : Prop := c.x = 0 ∧ (c.y = 0 ∨ c.y = 1)

/-- The centroid lies on the far point of Scenario A. -/
def OnFarPoint (c : Centroid) : Prop := c.x = 100 ∧ c.y = 100

/-! ## Quantities used to state the K-Means properties -/

/-- The points of `pts` whose `cid` is `i`, in order. -/
def clusterMembers (pts : List Pt) (i : Nat) : List Pt :=
  pts.filter fun p => decide (p.cid = some i)

/-- The arithmetic mean of `f` over a list of points. -/
def meanOf (f : Pt → ℚ) (l : List Pt) : ℚ := (l.map f).sum / (l.length : ℚ)

/-- Every assigned `cid` of `pts` is below `k`. -/
def CidsValid (pts : List Pt) (k : Nat) : Prop :=
  ∀ p ∈ pts, ∀ c, p.cid = some c → c < k

/-- The squared distance from `p` to centroid number `i` of `cents`. -/
def distTo (cents : List Centroid) (i : Nat) (p : Pt) : ℚ :=
  match cents[i]? with
  | some c => centDist p c
  | none => 0

/-- The sum over the assigned points of the squared distance to the centroid that the
point's `cid` indexes. -/
def assignedCost (cents : List Centroid) (pts : List Pt) : ℚ :=
  (pts.map fun p =>
    match p.cid with
    | none => 0
    | some c => distTo cents c p).sum

/-- The result `r` indexes a centroid of `cents` at minimal distance from `p`, with
every earlier centroid strictly farther. -/
def IsLowestArgmin (p : Pt) (cents : List Centroid) (r : Nat) : Prop :=
  ∃ cb, cents[r]? = some cb ∧
    (∀ (j : Nat) (cj : Centroid), cents[j]? = some cj → centDist p cb ≤ centDist p cj) ∧
    (∀ (j : Nat) (cj : Centroid), cents[j]? = some cj → j < r → centDist p cb < centDist p cj)

/-! ## Sample states -/

/-- A state with two centroids: two points assigned to centroid `0`, one unassigned
point, and no point assigned to centroid `1`; the next step is an Update. -/
def sampleState : KMState :=
  { points := [{ x := 0, y := 0, cid := some 0 }, { x := 2, y := 4, cid := some 0 },
      { x := 7, y := 7 }]
    centroids := [{ x := 5, y := 5, color := "#ef4444" }, { x := 9, y := 1, color := "#10b981" }]
    prevCentroids := none
    stepNum := 1
    auto := false
    k := 2
    seed := 1 }

/-- A state whose single point carries `cid = 3` while there is one centroid; the next
step is an Update. -/
def staleState : KMState :=
  { points := [{ x := 0, y := 0, cid := some 3 }]
    centroids := [{ x := 5, y := 5, color := "#ef4444" }]
    prevCentroids := none
    stepNum := 1
    auto := false
    k := 1
    seed := 1 }

/-! ## Quantities used to state the DBSCAN properties -/

/-- The index `j` occurs in the list `neigh[i]`; no index occurs in a list that does not
exist. -/
def OccursIn (neigh : List (List Nat)) (i j : Nat) : Prop :=
  ∃ l, neigh[i]? = some l ∧ j ∈ l

/-- The points number `i` and `j` exist and their squared distance is at most `eps2`. -/
def Within (pts : List Pt) (eps2 : ℚ) (i j : Nat) : Prop :=
  ∃ a b, pts[i]? = some a ∧ pts[j]? = some b ∧ dist2 a b ≤ eps2

/-! ## Sample point set -/

/-- Three points on a line at unit spacing: the middle one is within distance `1` of
both ends, the ends are at distance `2`. -/
def linePoints : List Pt := [{ x := 0, y := 0 }, { x := 1, y := 0 }, { x := 2, y := 0 }]

/-! ## Invariants of the label propagation -/

/-- The neighbour lists are symmetric and hold only indices below `n`. -/
structure GraphOK (neigh : List (List Nat)) (n : Nat) : Prop where
  symm : ∀ a b : Nat, OccursIn neigh a b → OccursIn neigh b a
  lt : ∀ a b : Nat, OccursIn neigh a b → b < n

/-- The point number `a` is flagged core. -/
def IsCore (core : List Bool) (a : Nat) : Prop := core.getD a false = true

/-- Every label of `l1` that is not the unvisited sentinel is still there in `l2`, and
the length is the same. -/
def Keeps (l1 l2 : List Int) : Prop :=
  l2.length = l1.length ∧
    ∀ (a : Nat) (v : Int), l1[a]? = some v → v ≠ unvisited → l2[a]? = some v

/-- The state between two iterations of the labelling loop, `cid` being the next
cluster id: labels are the sentinel, `-1` or a cluster id below `cid`; a core point is
never noise; around a labelled core point every neighbour is labelled and every core
neighbour has the same label; a point with a cluster id is core or a neighbour of some
point. -/
structure LoopInv (neigh : List (List Nat)) (core : List Bool) (n : Nat)
    (labels : List Int) (cid : Nat) : Prop where
  len : labels.length = n
  range : ∀ (a : Nat) (v : Int), labels[a]? = some v →
    v = unvisited ∨ v = -1 ∨ (0 ≤ v ∧ v < (cid : Int))
  coreNotNoise : ∀ a : Nat, IsCore core a → labels[a]? ≠ some (-1)
  closed : ∀ (a : Nat) (v : Int), IsCore core a → labels[a]? = some v → v ≠ unvisited →
    ∀ b : Nat, OccursIn neigh a b →
      labels[b]? ≠ some unvisited ∧ (IsCore core b → labels[b]? = some v)
  reached : ∀ (a : Nat) (v : Int), labels[a]? = some v → 0 ≤ v →
    IsCore core a ∨ ∃ p : Nat, OccursIn neigh p a

/-- The state during the expansion of cluster `cid` with queue `q`: as `LoopInv`, with
the closure known for the earlier clusters only; the core points labelled `cid` are
exactly the entries of the queue. -/
structure ExpandInv (neigh : List (List Nat)) (core : List Bool) (n : Nat) (cid : Nat)
    (labels : List Int) (q : List Nat) : Prop where
  len : labels.length = n
  range : ∀ (a : Nat) (v : Int), labels[a]? = some v →
    v = unvisited ∨ v = -1 ∨ (0 ≤ v ∧ v < (cid : Int) + 1)
  coreNotNoise : ∀ a : Nat, IsCore core a → labels[a]? ≠ some (-1)
  closedOld : ∀ (a : Nat) (v : Int), IsCore core a → labels[a]? = some v →
    v ≠ unvisited → v ≠ (cid : Int) →
    ∀ b : Nat, OccursIn neigh a b →
      labels[b]? ≠ some unvisited ∧ (IsCore core b → labels[b]? = some v)
  reached : ∀ (a : Nat) (v : Int), labels[a]? = some v → 0 ≤ v →
    IsCore core a ∨ ∃ p : Nat, OccursIn neigh p a
  inQueue : ∀ a : Nat, IsCore core a → labels[a]? = some (cid : Int) → a ∈ q
  queueOK : ∀ a ∈ q, IsCore core a ∧ labels[a]? = some (cid : Int)

/-- Every neighbour of the first `qi` entries of the queue is labelled. -/
def Processed (neigh : List (List Nat)) (labels : List Int) (q : List Nat) (qi : Nat) :
    Prop :=
  ∀ (k p : Nat), k < qi → q[k]? = some p →
    ∀ b : Nat, OccursIn neigh p b → labels[b]? ≠ some unvisited

/-! ## Scenario B of the specification -/

/-- Three points mutually within distance `1` and one point at distance `1000`. -/
def scenarioBPoints : List Pt :=
  [{ x := 0, y := 0 }, { x := 1, y := 0 }, { x := 1 / 2, y := 1 / 2 }, { x := 1000, y := 0 }]

/-! ## Lemmas on `nearestCentroid` -/

lemma getElem?_snoc_cases {α : Type} (pre : List α) (c : α) (j : Nat) (cj : α)
    (h : (pre ++ [c])[j]? = some cj) :
    (j < pre.length ∧ pre[j]? = some cj) ∨ (j = pre.length ∧ cj = c) := by
  rcases Nat.lt_or_ge j pre.length with hj | hj
  · left
    rw [List.getElem?_append_left hj] at h
    exact ⟨hj, h⟩
  · right
    rw [List.getElem?_append_right hj] at h
    rcases Nat.eq_or_lt_of_le hj with he | hlt
    · subst he
      simp at h
      exact ⟨rfl, h.symm⟩
    · have : j - pre.length ≠ 0 := by omega
      obtain ⟨m, hm⟩ := Nat.exists_eq_succ_of_ne_zero this
      rw [hm] at h
      simp at h

lemma nearestLoop_spec (p : Pt) :
    ∀ (rest pre : List Centroid) (best : Nat) (cb : Centroid),
      pre[best]? = some cb →
      (∀ (j : Nat) (cj : Centroid), pre[j]? = some cj → centDist p cb ≤ centDist p cj) →
      (∀ (j : Nat) (cj : Centroid), pre[j]? = some cj → j < best → centDist p cb < centDist p cj) →
      IsLowestArgmin p (pre ++ rest)
        (nearestLoop p rest pre.length best (some (centDist p cb))) := by
  intro rest
  induction rest with
  | nil =>
    intro pre best cb hb hmin hlow
    simp only [nearestLoop, List.append_nil]
    exact ⟨cb, hb, hmin, hlow⟩
  | cons c cs ih =>
    intro pre best cb hb hmin hlow
    have hbl : best < pre.length := by
      by_contra hcon
      rw [List.getElem?_eq_none (Nat.le_of_not_lt hcon)] at hb
      cases hb
    have hlen : (pre ++ [c]).length = pre.length + 1 := by simp
    have happ : pre ++ c :: cs = (pre ++ [c]) ++ cs := by simp
    rw [nearestLoop]
    by_cases hlt : centDist p c < centDist p cb
    · have hcond : ltBest (centDist p c) (some (centDist p cb)) = true := by
        simp [ltBest, hlt]
      rw [if_pos hcond, happ, ← hlen]
      apply ih (pre ++ [c]) pre.length c
      · simp
      · intro j cj hj
        rcases getElem?_snoc_cases pre c j cj hj with ⟨_, h1⟩ | ⟨_, h2⟩
        · exact le_trans (le_of_lt hlt) (hmin j cj h1)
        · rw [h2]
      · intro j cj hj hjl
        rcases getElem?_snoc_cases pre c j cj hj with ⟨_, h1⟩ | ⟨h2, _⟩
        · exact lt_of_lt_of_le hlt (hmin j cj h1)
        · omega
    · have hcond : ¬ (ltBest (centDist p c) (some (centDist p cb)) = true) := by
        simp [ltBest, hlt]
      rw [if_neg hcond, happ, ← hlen]
      apply ih (pre ++ [c]) best cb
      · rw [List.getElem?_append_left hbl]
        exact hb
      · intro j cj hj
        rcases getElem?_snoc_cases pre c j cj hj with ⟨_, h1⟩ | ⟨_, h2⟩
        · exact hmin j cj h1
        · rw [h2]
          exact le_of_not_lt hlt
      · intro j cj hj hjl
        rcases getElem?_snoc_cases pre c j cj hj with ⟨_, h1⟩ | ⟨h2, _⟩
        · exact hlow j cj h1 hjl
        · omega

lemma nearestCentroid_spec (p : Pt) (cents : List Centroid) (h : cents ≠ []) :
    IsLowestArgmin p cents (nearestCentroid p cents) := by
  cases cents with
  | nil => exact absurd rfl h
  | cons c cs =>
    have key := nearestLoop_spec p cs [c] 0 c (by simp)
      (by
        intro j cj hj
        rcases getElem?_snoc_cases [] c j cj (by simpa using hj) with ⟨h1, _⟩ | ⟨_, h2⟩
        · simp at h1
        · rw [h2])
      (by intro j cj _ hj; omega)
    simpa [nearestCentroid, nearestLoop, ltBest] using key

lemma nearestCentroid_lt (p : Pt) (cents : List Centroid) (h : cents ≠ []) :
    nearestCentroid p cents < cents.length := by
  obtain ⟨cb, hcb, _, _⟩ := nearestCentroid_spec p cents h
  by_contra hcon
  rw [List.getElem?_eq_none (Nat.le_of_not_lt hcon)] at hcb
  cases hcb

/-- C1: for a non-empty centroid list, `nearestCentroid` returns a valid index whose
centroid is at squared distance less than or equal to that of every centroid, and no
lower index attains that distance. -/
theorem nearestCentroid_lowest_argmin (p : Pt) (cents : List Centroid) (h : cents ≠ []) :
    nearestCentroid p cents < cents.length ∧
    ∃ cb, cents[nearestCentroid p cents]? = some cb ∧
      (∀ (j : Nat) (cj : Centroid), cents[j]? = some cj → centDist p cb ≤ centDist p cj) ∧
      (∀ (j : Nat) (cj : Centroid), cents[j]? = some cj → centDist p cj = centDist p cb →
        nearestCentroid p cents ≤ j) := by
  refine ⟨nearestCentroid_lt p cents h, ?_⟩
  obtain ⟨cb, hcb, hmin, hlow⟩ := nearestCentroid_spec p cents h
  refine ⟨cb, hcb, hmin, ?_⟩
  intro j cj hj heq
  by_contra hcon
  have := hlow j cj hj (Nat.lt_of_not_le hcon)
  rw [heq] at this
  exact lt_irrefl _ this

/-- Witness for C1: a point equidistant from two centroids and farther from a third. -/
theorem nearestCentroid_lowest_argmin_witness :
    [({ x := 5, y := 0, color := "a" } : Centroid), { x := 1, y := 0, color := "b" },
         { x := 0, y := 1, color := "c" }] ≠ [] ∧
    nearestCentroid { x := 0, y := 0 }
        [{ x := 5, y := 0, color := "a" }, { x := 1, y := 0, color := "b" },
         { x := 0, y := 1, color := "c" }] <
      [({ x := 5, y := 0, color := "a" } : Centroid), { x := 1, y := 0, color := "b" },
         { x := 0, y := 1, color := "c" }].length ∧
    ∃ cb, [({ x := 5, y := 0, color := "a" } : Centroid), { x := 1, y := 0, color := "b" },
         { x := 0, y := 1, color := "c" }][nearestCentroid { x := 0, y := 0 }
        [{ x := 5, y := 0, color := "a" }, { x := 1, y := 0, color := "b" },
         { x := 0, y := 1, color := "c" }]]? = some cb ∧
      (∀ (j : Nat) (cj : Centroid), [({ x := 5, y := 0, color := "a" } : Centroid), { x := 1, y := 0, color := "b" },
         { x := 0, y := 1, color := "c" }][j]? = some cj →
        centDist { x := 0, y := 0 } cb ≤ centDist { x := 0, y := 0 } cj) ∧
      (∀ (j : Nat) (cj : Centroid), [({ x := 5, y := 0, color := "a" } : Centroid), { x := 1, y := 0, color := "b" },
         { x := 0, y := 1, color := "c" }][j]? = some cj →
        centDist { x := 0, y := 0 } cj = centDist { x := 0, y := 0 } cb →
        nearestCentroid { x := 0, y := 0 }
        [{ x := 5, y := 0, color := "a" }, { x := 1, y := 0, color := "b" },
         { x := 0, y := 1, color := "c" }] ≤ j) :=
  ⟨by simp, nearestCentroid_lowest_argmin _ _ (by simp)⟩


/-! ## Lemmas on `initCentroids` -/

lemma initLoop_length (pts : List Pt) :
    ∀ (n i s : Nat), (initLoop pts n i s).length = n := by
  intro n
  induction n with
  | zero => intro i s; rfl
  | succ n ih => intro i s; simp [initLoop, ih]

lemma initCentroids_length (seed : Int) (pts : List Pt) (kk : Nat) :
    (initCentroids seed pts kk).length = kk :=
  initLoop_length pts kk 0 _

/-- The drawn index in natural-number arithmetic. -/
lemma drawIndex_rngOut (s len : Nat) :
    drawIndex (rngOut s) len = (s % 268435456 * len) / 268435455 := by
  have h : rngOut s * (len : ℚ) = ((s % 268435456 * len : Nat) : ℚ) / ((268435455 : Nat) : ℚ) := by
    rw [rngOut]
    push_cast
    ring
  have hfl : ∀ q : ℚ, q.floor = ⌊q⌋ := fun q => by rw [Rat.floor_def', Rat.floor_def]
  rw [drawIndex, h, hfl, Rat.floor_natCast_div_natCast]
  exact Int.toNat_natCast _

lemma assignClusters_cid_lt (s : KMState) (h : s.centroids ≠ []) :
    ∀ p ∈ (assignClusters s).points, ∃ c, p.cid = some c ∧ c < s.centroids.length := by
  intro p hp
  simp only [assignClusters, List.mem_map] at hp
  obtain ⟨q, _, rfl⟩ := hp
  exact ⟨_, rfl, nearestCentroid_lt q s.centroids h⟩


/-- C4: for `K ≥ 1` `initCentroids` returns exactly `K` centroids, and assigning every
point against them (directly, or by Reset followed by one step) gives every point a
`cid` below `K`. -/
theorem initCentroids_count_and_assign_range (K : Nat) (hK : 1 ≤ K) (seed : Int)
    (pts : List Pt) :
    (initCentroids seed pts K).length = K ∧
    (∀ s : KMState, s.points = pts → s.centroids = initCentroids seed pts K →
      ∀ p ∈ (assignClusters s).points, ∃ c, p.cid = some c ∧ c < K) ∧
    (∀ s : KMState, s.points = pts → s.k = K → s.seed = seed →
      ∃ t, stepKMeans (resetKMeans s) = some t ∧ t.centroids.length = K ∧
        t.points.length = pts.length ∧
        ∀ p ∈ t.points, ∃ c, p.cid = some c ∧ c < K) := by
  have hlen := initCentroids_length seed pts K
  have hne : initCentroids seed pts K ≠ [] := by
    intro h
    rw [h] at hlen
    simp at hlen
    omega
  refine ⟨hlen, ?_, ?_⟩
  · intro s _ hc p hp
    have := assignClusters_cid_lt s (by rw [hc]; exact hne) p hp
    rwa [hc, hlen] at this
  · intro s hp hk hs
    have hcent : (resetKMeans s).centroids = initCentroids seed pts K := by
      simp [resetKMeans, hp, hk, hs]
    refine ⟨{ assignClusters (resetKMeans s) with stepNum := 1 }, ?_, ?_, ?_, ?_⟩
    · simp [stepKMeans, resetKMeans]
    · show (resetKMeans s).centroids.length = K
      rw [hcent, hlen]
    · simp [assignClusters, resetKMeans, hp]
    · intro p hp
      have := assignClusters_cid_lt (resetKMeans s) (by rw [hcent]; exact hne) p hp
      rwa [hcent, hlen] at this

/-- Witness for C4: two centroids for the three points of Scenario A. -/
theorem initCentroids_count_and_assign_range_witness :
    1 ≤ 2 ∧
    (initCentroids 1 scenarioAPoints 2).length = 2 ∧
    (∀ s : KMState, s.points = scenarioAPoints →
      s.centroids = initCentroids 1 scenarioAPoints 2 →
      ∀ p ∈ (assignClusters s).points, ∃ c, p.cid = some c ∧ c < 2) ∧
    (∀ s : KMState, s.points = scenarioAPoints → s.k = 2 → s.seed = 1 →
      ∃ t, stepKMeans (resetKMeans s) = some t ∧ t.centroids.length = 2 ∧
        t.points.length = scenarioAPoints.length ∧
        ∀ p ∈ t.points, ∃ c, p.cid = some c ∧ c < 2) :=
  ⟨by decide, initCentroids_count_and_assign_range 2 (by decide) 1 scenarioAPoints⟩

/-- C5, at the failing input: for seed `116766454` the first value of the generator is
exactly `1`, the drawn index is `pts.length`, and the single centroid for the one-point
set `(5,5)` is the placeholder `(200,200)`, which is not the position of a point. -/
theorem initCentroids_single_point_off_set :
    rngOut (rngNext (rngInit (116766454 + 42))) = 1 ∧
    initCentroids 116766454 [{ x := 5, y := 5 }] 1 =
      [{ x := 200, y := 200, color := "#ef4444" }] ∧
    ¬ ∀ c ∈ initCentroids 116766454 [{ x := 5, y := 5 }] 1,
        ∃ p ∈ [({ x := 5, y := 5 } : Pt)], c.x = p.x ∧ c.y = p.y := by
  have h : initCentroids 116766454 [{ x := 5, y := 5 }] 1 =
      [{ x := 200, y := 200, color := "#ef4444" }] := by
    simp [initCentroids, initLoop, drawIndex_rngOut, rngInit, rngNext, placeholder, colors]
  refine ⟨?_, h, ?_⟩
  · have hs : rngInit (116766454 + 42) = 116766496 := by decide
    rw [hs]
    norm_num [rngOut, rngNext]
  · rw [h]
    norm_num

/-- C10 as stated fails: for seed `2` both centroids are drawn on `(0,0)` and all three
points get `cid = 0`. -/
theorem scenarioA_fails_seed_two :
    scenarioACids 2 = [some 0, some 0, some 0] ∧ ¬ ScenarioAHolds 2 := by
  have h : scenarioACids 2 = [some 0, some 0, some 0] := by
    simp [scenarioACids, assignClusters, resetKMeans, scenarioAState, scenarioAPoints,
      initCentroids, initLoop, drawIndex_rngOut, rngInit, rngNext, placeholder, colors,
      nearestCentroid, nearestLoop, ltBest, centDist]
  refine ⟨h, ?_⟩
  rintro ⟨a, b, hab, hne⟩
  rw [h] at hab
  simp at hab
  omega

lemma scenarioACids_eq (seed : Int) (c0 c1 : Centroid)
    (h : initCentroids seed scenarioAPoints 2 = [c0, c1]) :
    scenarioACids seed = scenarioAPoints.map fun p => some (nearestCentroid p [c0, c1]) := by
  simp only [scenarioACids, assignClusters, resetKMeans, scenarioAState, h, List.map_map]
  rfl

/-- C10, amended: for every seed for which `initCentroids` puts one of the two centroids
on the far point `(100,100)` and the other on `(0,0)` or `(0,1)`, after Reset and Assign
the two near points share a `cid` and the far point has the other one. -/
theorem scenarioA_holds_of_split_centroids (seed : Int)
    (h : ∃ c0 c1, initCentroids seed scenarioAPoints 2 = [c0, c1] ∧
      ((OnNearPoint c0 ∧ OnFarPoint c1) ∨ (OnFarPoint c0 ∧ OnNearPoint c1))) :
    ScenarioAHolds seed := by
  obtain ⟨c0, c1, heq, hpos⟩ := h
  rw [ScenarioAHolds, scenarioACids_eq seed c0 c1 heq]
  obtain ⟨x0, y0, col0⟩ := c0
  obtain ⟨x1, y1, col1⟩ := c1
  simp only [OnNearPoint, OnFarPoint] at hpos
  rcases hpos with ⟨⟨hx0, hy0 | hy0⟩, hx1, hy1⟩ | ⟨⟨hx0, hy0⟩, hx1, hy1 | hy1⟩ <;>
    subst hx0 hy0 hx1 hy1
  · exact ⟨0, 1, by norm_num [scenarioAPoints, nearestCentroid, nearestLoop, ltBest, centDist],
      by decide⟩
  · exact ⟨0, 1, by norm_num [scenarioAPoints, nearestCentroid, nearestLoop, ltBest, centDist],
      by decide⟩
  · exact ⟨1, 0, by norm_num [scenarioAPoints, nearestCentroid, nearestLoop, ltBest, centDist],
      by decide⟩
  · exact ⟨1, 0, by norm_num [scenarioAPoints, nearestCentroid, nearestLoop, ltBest, centDist],
      by decide⟩

/-- Witness for amended C10: seed `1` draws the centroids on `(0,0)` and `(100,100)`. -/
theorem scenarioA_holds_of_split_centroids_witness :
    (∃ c0 c1, initCentroids 1 scenarioAPoints 2 = [c0, c1] ∧
      ((OnNearPoint c0 ∧ OnFarPoint c1) ∨ (OnFarPoint c0 ∧ OnNearPoint c1))) ∧
    ScenarioAHolds 1 :=
  have h : ∃ c0 c1, initCentroids 1 scenarioAPoints 2 = [c0, c1] ∧
      ((OnNearPoint c0 ∧ OnFarPoint c1) ∨ (OnFarPoint c0 ∧ OnNearPoint c1)) :=
    ⟨{ x := 0, y := 0, color := "#ef4444" }, { x := 100, y := 100, color := "#10b981" },
      by simp [initCentroids, initLoop, drawIndex_rngOut, rngInit, rngNext, placeholder,
        colors, scenarioAPoints],
      Or.inl ⟨⟨rfl, Or.inl rfl⟩, rfl, rfl⟩⟩
  ⟨h, scenarioA_holds_of_split_centroids 1 h⟩

/-! ## Lemmas on `recomputeCentroids` -/

lemma clusterMembers_cons_none (p : Pt) (ps : List Pt) (i : Nat) (h : p.cid = none) :
    clusterMembers (p :: ps) i = clusterMembers ps i := by
  simp [clusterMembers, List.filter_cons, h]

lemma clusterMembers_cons_self (p : Pt) (ps : List Pt) (c : Nat) (h : p.cid = some c) :
    clusterMembers (p :: ps) c = p :: clusterMembers ps c := by
  simp [clusterMembers, List.filter_cons, h]

lemma clusterMembers_cons_ne (p : Pt) (ps : List Pt) (c i : Nat) (h : p.cid = some c)
    (hne : i ≠ c) : clusterMembers (p :: ps) i = clusterMembers ps i := by
  have : ¬ c = i := fun e => hne e.symm
  simp [clusterMembers, List.filter_cons, h, this]

/-- The accumulation loop succeeds on valid indices and adds to every accumulator the
coordinate sums and the count of the points assigned to it. -/
lemma accumulate_spec :
    ∀ (pts : List Pt) (sums : List Acc3), CidsValid pts sums.length →
      ∃ out, accumulate pts sums = some out ∧ out.length = sums.length ∧
        ∀ (i : Nat) (a : Acc3), sums[i]? = some a →
          out[i]? = some
            { x := a.x + ((clusterMembers pts i).map Pt.x).sum
              y := a.y + ((clusterMembers pts i).map Pt.y).sum
              n := a.n + (clusterMembers pts i).length } := by
  intro pts
  induction pts with
  | nil =>
    intro sums _
    refine ⟨sums, rfl, rfl, ?_⟩
    intro i a ha
    simp [clusterMembers, ha]
  | cons p ps ih =>
    intro sums hv
    have hvps : ∀ (l : List Acc3), l.length = sums.length → CidsValid ps l.length := by
      intro l hl q hq c hc
      rw [hl]
      exact hv q (List.mem_cons_of_mem _ hq) c hc
    cases hcid : p.cid with
    | none =>
      obtain ⟨out, hout, hlen, hget⟩ := ih sums (hvps sums rfl)
      refine ⟨out, ?_, hlen, ?_⟩
      · rw [accumulate, hcid]
        exact hout
      · intro i a ha
        rw [clusterMembers_cons_none p ps i hcid]
        exact hget i a ha
    | some c =>
      have hc : c < sums.length := hv p (List.mem_cons_self _ _) c hcid
      have hsc : sums[c]? = some sums[c] := List.getElem?_eq_getElem hc
      obtain ⟨out, hout, hlen, hget⟩ :=
        ih (sums.set c { x := sums[c].x + p.x, y := sums[c].y + p.y, n := sums[c].n + 1 })
          (hvps _ (by simp))
      refine ⟨out, ?_, ?_, ?_⟩
      · rw [accumulate, hcid]
        simp only [hsc]
        exact hout
      · rw [hlen]
        simp
      · intro i a ha
        by_cases hic : i = c
        · subst hic
          rw [hsc] at ha
          cases ha
          rw [clusterMembers_cons_self p ps i hcid]
          have hs : (sums.set i
              { x := sums[i].x + p.x, y := sums[i].y + p.y, n := sums[i].n + 1 })[i]? =
              some { x := sums[i].x + p.x, y := sums[i].y + p.y, n := sums[i].n + 1 } := by
            rw [List.getElem?_set, if_pos rfl, if_pos hc]
          rw [hget i _ hs]
          simp only [List.map_cons, List.sum_cons, List.length_cons, Option.some.injEq,
            Acc3.mk.injEq]
          refine ⟨by ring, by ring, by omega⟩
        · rw [clusterMembers_cons_ne p ps c i hcid hic]
          apply hget i a
          rw [List.getElem?_set_ne (fun e => hic e.symm)]
          exact ha

/-- The list `next`: one centroid per old centroid, moved to the mean of its members or
kept when it has none. -/
lemma nextCentroids_spec (cents : List Centroid) (pts : List Pt)
    (hv : CidsValid pts cents.length) :
    ∃ next, nextCentroids cents pts = some next ∧ next.length = cents.length ∧
      ∀ (i : Nat) (c : Centroid), cents[i]? = some c →
        (clusterMembers pts i ≠ [] →
          next[i]? = some { c with x := meanOf Pt.x (clusterMembers pts i)
                                   y := meanOf Pt.y (clusterMembers pts i) }) ∧
        (clusterMembers pts i = [] → next[i]? = some c) := by
  obtain ⟨out, hout, hlen, hget⟩ :=
    accumulate_spec pts (List.replicate cents.length { x := 0, y := 0, n := 0 })
      (by simpa using hv)
  rw [List.length_replicate] at hlen
  refine ⟨List.zipWith moveCentroid cents out, ?_, ?_, ?_⟩
  · rw [nextCentroids, hout]
    rfl
  · simp [hlen]
  · intro i c hc
    have hi : i < cents.length := by
      by_contra hcon
      rw [List.getElem?_eq_none (Nat.le_of_not_lt hcon)] at hc
      cases hc
    have hrep : (List.replicate cents.length ({ x := 0, y := 0, n := 0 } : Acc3))[i]? =
        some { x := 0, y := 0, n := 0 } := by
      simp [List.getElem?_replicate, hi]
    have ho := hget i _ hrep
    have hz : (List.zipWith moveCentroid cents out)[i]? =
        some (moveCentroid c
          { x := 0 + ((clusterMembers pts i).map Pt.x).sum
            y := 0 + ((clusterMembers pts i).map Pt.y).sum
            n := 0 + (clusterMembers pts i).length }) := by
      simp [List.getElem?_zipWith, hc, ho]
    rw [hz]
    constructor
    · intro hne
      have hn : (clusterMembers pts i).length ≠ 0 := by
        intro h0
        exact hne (List.length_eq_zero.mp h0)
      simp [moveCentroid, hn, meanOf]
    · intro he
      simp [moveCentroid, he]

/-- C2: on valid indices `recomputeCentroids` returns a centroid list of the same
length; centroid `i` moves to the mean position of the points with `cid = i` and keeps
its colour, or stays exactly as it was when no point has `cid = i`; points without `cid`
play no part. -/
theorem recomputeCentroids_mean_or_unchanged (s : KMState)
    (hv : CidsValid s.points s.centroids.length) :
    ∃ t, recomputeCentroids s = some t ∧
      t.centroids.length = s.centroids.length ∧
      ∀ (i : Nat) (c : Centroid), s.centroids[i]? = some c →
        (clusterMembers s.points i ≠ [] →
          t.centroids[i]? = some { c with x := meanOf Pt.x (clusterMembers s.points i)
                                          y := meanOf Pt.y (clusterMembers s.points i) }) ∧
        (clusterMembers s.points i = [] → t.centroids[i]? = some c) := by
  obtain ⟨next, hnext, hlen, hget⟩ := nextCentroids_spec s.centroids s.points hv
  exact ⟨{ s with prevCentroids := some s.centroids, centroids := next },
    by rw [recomputeCentroids, hnext]; rfl, hlen, hget⟩

/-! ## Lemmas on the cost of an assignment -/

lemma sum_sq_sub (f : Pt → ℚ) (a : ℚ) :
    ∀ l : List Pt, (l.map fun p => (f p - a) ^ 2).sum =
      (l.map fun p => f p ^ 2).sum - 2 * a * (l.map f).sum + (l.length : ℚ) * a ^ 2 := by
  intro l
  induction l with
  | nil => simp
  | cons p ps ih =>
    simp only [List.map_cons, List.sum_cons, List.length_cons, ih]
    push_cast
    ring

/-- The mean minimises the sum of squared deviations. -/
lemma sum_sq_mean_le (f : Pt → ℚ) (a : ℚ) (l : List Pt) (hl : l ≠ []) :
    (l.map fun p => (f p - meanOf f l) ^ 2).sum ≤ (l.map fun p => (f p - a) ^ 2).sum := by
  have hn : (0 : ℚ) < (l.length : ℚ) := by
    have : 0 < l.length := List.length_pos.mpr hl
    exact_mod_cast this
  rw [sum_sq_sub f (meanOf f l) l, sum_sq_sub f a l, meanOf]
  have key : (l.length : ℚ) * a ^ 2 - 2 * a * (l.map f).sum -
      ((l.length : ℚ) * ((l.map f).sum / (l.length : ℚ)) ^ 2 -
        2 * ((l.map f).sum / (l.length : ℚ)) * (l.map f).sum) =
      ((l.length : ℚ) * a - (l.map f).sum) ^ 2 / (l.length : ℚ) := by
    field_simp
    ring
  have hpos : 0 ≤ ((l.length : ℚ) * a - (l.map f).sum) ^ 2 / (l.length : ℚ) :=
    div_nonneg (sq_nonneg _) (le_of_lt hn)
  linarith

lemma sum_centDist_split (c : Centroid) (l : List Pt) :
    (l.map fun p => centDist p c).sum =
      (l.map fun p => (p.x - c.x) ^ 2).sum + (l.map fun p => (p.y - c.y) ^ 2).sum := by
  induction l with
  | nil => simp
  | cons p ps ih =>
    simp only [List.map_cons, List.sum_cons]
    rw [ih]
    simp only [centDist]
    ring

/-- The cost regrouped by centroid index. -/
lemma assignedCost_regroup (cents : List Centroid) (k : Nat) :
    ∀ pts : List Pt, CidsValid pts k →
      assignedCost cents pts =
        ∑ i in Finset.range k, ((clusterMembers pts i).map (distTo cents i)).sum := by
  intro pts
  induction pts with
  | nil => intro _; simp [assignedCost, clusterMembers]
  | cons p ps ih =>
    intro hv
    have hps : CidsValid ps k := fun q hq c hc => hv q (List.mem_cons_of_mem _ hq) c hc
    have hrec : assignedCost cents (p :: ps) =
        (match p.cid with
          | none => 0
          | some c => distTo cents c p) + assignedCost cents ps := by
      simp [assignedCost]
    rw [hrec, ih hps]
    cases hcid : p.cid with
    | none =>
      simp only [zero_add]
      apply Finset.sum_congr rfl
      intro i _
      rw [clusterMembers_cons_none p ps i hcid]
    | some c =>
      have hc : c < k := hv p (List.mem_cons_self _ _) c hcid
      have hterm : ∀ i ∈ Finset.range k,
          ((clusterMembers (p :: ps) i).map (distTo cents i)).sum =
            (if i = c then distTo cents c p else 0) +
              ((clusterMembers ps i).map (distTo cents i)).sum := by
        intro i _
        by_cases hic : i = c
        · subst hic
          rw [clusterMembers_cons_self p ps i hcid]
          simp
        · rw [clusterMembers_cons_ne p ps c i hcid hic]
          simp [hic]
      rw [Finset.sum_congr rfl hterm, Finset.sum_add_distrib, Finset.sum_ite_eq']
      simp [hc]

/-- C6: on valid indices, the assigned cost against the centroids returned by
`recomputeCentroids` is less than or equal to the assigned cost against the centroids
before the update, the assignment being the same. -/
theorem recomputeCentroids_cost_le (s : KMState)
    (hv : CidsValid s.points s.centroids.length) :
    ∃ t, recomputeCentroids s = some t ∧ t.points = s.points ∧
      assignedCost t.centroids t.points ≤ assignedCost s.centroids s.points := by
  obtain ⟨next, hnext, hlen, hget⟩ := nextCentroids_spec s.centroids s.points hv
  refine ⟨{ s with prevCentroids := some s.centroids, centroids := next },
    by rw [recomputeCentroids, hnext]; rfl, rfl, ?_⟩
  show assignedCost next s.points ≤ assignedCost s.centroids s.points
  rw [assignedCost_regroup next s.centroids.length s.points hv,
    assignedCost_regroup s.centroids s.centroids.length s.points hv]
  apply Finset.sum_le_sum
  intro i hi
  have hi2 : i < s.centroids.length := Finset.mem_range.mp hi
  have hc : s.centroids[i]? = some s.centroids[i] := List.getElem?_eq_getElem hi2
  obtain ⟨hmove, hkeep⟩ := hget i _ hc
  by_cases hm : clusterMembers s.points i = []
  · rw [hm]
    simp
  · have e1 : distTo next i = fun p => centDist p
        { s.centroids[i] with x := meanOf Pt.x (clusterMembers s.points i)
                              y := meanOf Pt.y (clusterMembers s.points i) } := by
      funext p
      simp [distTo, hmove hm]
    have e2 : distTo s.centroids i = fun p => centDist p s.centroids[i] := by
      funext p
      simp [distTo, hc]
    rw [e1, e2, sum_centDist_split, sum_centDist_split]
    exact add_le_add (sum_sq_mean_le Pt.x _ _ hm) (sum_sq_mean_le Pt.y _ _ hm)

lemma sampleState_valid : CidsValid sampleState.points sampleState.centroids.length := by
  intro p hp c hc
  simp [sampleState] at hp
  rcases hp with rfl | rfl | rfl <;> simp at hc <;> simp [sampleState, ← hc]

/-- Witness for C2: the sample state has valid indices. -/
theorem recomputeCentroids_mean_or_unchanged_witness :
    CidsValid sampleState.points sampleState.centroids.length ∧
    ∃ t, recomputeCentroids sampleState = some t ∧
      t.centroids.length = sampleState.centroids.length ∧
      ∀ (i : Nat) (c : Centroid), sampleState.centroids[i]? = some c →
        (clusterMembers sampleState.points i ≠ [] →
          t.centroids[i]? =
            some { c with x := meanOf Pt.x (clusterMembers sampleState.points i)
                          y := meanOf Pt.y (clusterMembers sampleState.points i) }) ∧
        (clusterMembers sampleState.points i = [] → t.centroids[i]? = some c) :=
  ⟨sampleState_valid, recomputeCentroids_mean_or_unchanged sampleState sampleState_valid⟩

/-- Witness for C6: the sample state has valid indices. -/
theorem recomputeCentroids_cost_le_witness :
    CidsValid sampleState.points sampleState.centroids.length ∧
    ∃ t, recomputeCentroids sampleState = some t ∧ t.points = sampleState.points ∧
      assignedCost t.centroids t.points ≤
        assignedCost sampleState.centroids sampleState.points :=
  ⟨sampleState_valid, recomputeCentroids_cost_le sampleState sampleState_valid⟩

/-- C7 as stated fails: in a state whose point carries a `cid` that indexes no centroid,
the Update phase throws and the step leaves no state with `stepNum` increased. -/
theorem stepKMeans_stale_cid_fails :
    stepKMeans staleState = none ∧
    ¬ ∃ t, stepKMeans staleState = some t ∧ t.stepNum = staleState.stepNum + 1 := by
  have h : stepKMeans staleState = none := by
    simp [stepKMeans, staleState, recomputeCentroids, nextCentroids, accumulate]
  refine ⟨h, ?_⟩
  rintro ⟨t, ht, _⟩
  rw [h] at ht
  cases ht

/-- C7, amended: in every state in which the assigned `cid` values are valid centroid
indices whenever the step is an Update, one `stepKMeans` call increases `stepNum` by
exactly 1 and runs one phase: Assign when the new `stepNum` is odd (every `cid` becomes
`nearestCentroid`, `centroids` and `prevCentroids` unchanged), Update when it is even
(the centroids become those of `recomputeCentroids`, the points are unchanged). -/
theorem stepKMeans_one_phase (s : KMState)
    (hv : (s.stepNum + 1) % 2 = 0 → CidsValid s.points s.centroids.length) :
    ∃ t, stepKMeans s = some t ∧ t.stepNum = s.stepNum + 1 ∧
      ((s.stepNum + 1) % 2 = 1 →
        t.points = s.points.map
          (fun p => { p with cid := some (nearestCentroid p s.centroids) }) ∧
        t.centroids = s.centroids ∧ t.prevCentroids = s.prevCentroids) ∧
      ((s.stepNum + 1) % 2 = 0 →
        (∃ u, recomputeCentroids s = some u ∧ t.centroids = u.centroids ∧
          t.prevCentroids = u.prevCentroids) ∧
        t.points = s.points) := by
  by_cases hodd : (s.stepNum + 1) % 2 = 1
  · refine ⟨{ assignClusters s with stepNum := s.stepNum + 1 }, ?_, rfl, ?_, ?_⟩
    · rw [stepKMeans, if_pos hodd]
    · intro _
      exact ⟨rfl, rfl, rfl⟩
    · intro h0
      omega
  · have heven : (s.stepNum + 1) % 2 = 0 := by omega
    obtain ⟨next, hnext, _, _⟩ := nextCentroids_spec s.centroids s.points (hv heven)
    have hrec : recomputeCentroids s =
        some { s with prevCentroids := some s.centroids, centroids := next } := by
      rw [recomputeCentroids, hnext]
      rfl
    refine ⟨{ s with prevCentroids := some s.centroids, centroids := next,
                     stepNum := s.stepNum + 1 }, ?_, rfl, ?_, ?_⟩
    · rw [stepKMeans, if_neg hodd, hrec]
      rfl
    · intro h1
      exact absurd h1 hodd
    · intro _
      exact ⟨⟨_, hrec, rfl, rfl⟩, rfl⟩

/-- Witness for amended C7: the sample state is at an odd `stepNum` with valid indices. -/
theorem stepKMeans_one_phase_witness :
    ((sampleState.stepNum + 1) % 2 = 0 →
      CidsValid sampleState.points sampleState.centroids.length) ∧
    ∃ t, stepKMeans sampleState = some t ∧ t.stepNum = sampleState.stepNum + 1 ∧
      ((sampleState.stepNum + 1) % 2 = 1 →
        t.points = sampleState.points.map
          (fun p => { p with cid := some (nearestCentroid p sampleState.centroids) }) ∧
        t.centroids = sampleState.centroids ∧
        t.prevCentroids = sampleState.prevCentroids) ∧
      ((sampleState.stepNum + 1) % 2 = 0 →
        (∃ u, recomputeCentroids sampleState = some u ∧ t.centroids = u.centroids ∧
          t.prevCentroids = u.prevCentroids) ∧
        t.points = sampleState.points) :=
  ⟨fun _ => sampleState_valid, stepKMeans_one_phase sampleState fun _ => sampleState_valid⟩


/-! ## Lemmas on the neighbour lists -/

lemma dist2_comm (a b : Pt) : dist2 a b = dist2 b a := by
  simp only [dist2]
  ring

lemma within_symm (pts : List Pt) (eps2 : ℚ) (i j : Nat) (h : Within pts eps2 i j) :
    Within pts eps2 j i := by
  obtain ⟨a, b, ha, hb, hd⟩ := h
  exact ⟨b, a, hb, ha, by rw [dist2_comm]; exact hd⟩

lemma within_lt (pts : List Pt) (eps2 : ℚ) (i j : Nat) (h : Within pts eps2 i j) :
    i < pts.length ∧ j < pts.length := by
  obtain ⟨a, b, ha, hb, _⟩ := h
  constructor
  · by_contra hcon
    rw [List.getElem?_eq_none (Nat.le_of_not_lt hcon)] at ha
    cases ha
  · by_contra hcon
    rw [List.getElem?_eq_none (Nat.le_of_not_lt hcon)] at hb
    cases hb

lemma occursIn_pushAt (neigh : List (List Nat)) (i v a b : Nat) (hi : i < neigh.length) :
    OccursIn (pushAt neigh i v) a b ↔ OccursIn neigh a b ∨ (a = i ∧ b = v) := by
  unfold OccursIn pushAt
  by_cases hia : i = a
  · subst hia
    have hold : neigh[i]? = some neigh[i] := List.getElem?_eq_getElem hi
    have hset : (neigh.set i (neigh.getD i [] ++ [v]))[i]? = some (neigh[i] ++ [v]) := by
      rw [List.getElem?_set, if_pos rfl, if_pos hi, List.getD_eq_getElem?_getD, hold]
      rfl
    rw [hset, hold]
    constructor
    · rintro ⟨l, hl, hb⟩
      cases hl
      rcases List.mem_append.mp hb with h | h
      · exact Or.inl ⟨_, rfl, h⟩
      · exact Or.inr ⟨rfl, List.mem_singleton.mp h⟩
    · rintro (⟨l, hl, hb⟩ | ⟨_, hb⟩)
      · cases hl
        exact ⟨_, rfl, List.mem_append.mpr (Or.inl hb)⟩
      · exact ⟨_, rfl, List.mem_append.mpr (Or.inr (List.mem_singleton.mpr hb))⟩
  · rw [List.getElem?_set_ne hia]
    constructor
    · intro h
      exact Or.inl h
    · rintro (h | ⟨h, _⟩)
      · exact h
      · exact absurd h.symm hia

lemma length_pushAt (neigh : List (List Nat)) (i v : Nat) :
    (pushAt neigh i v).length = neigh.length := by
  simp [pushAt]

lemma linkStep_spec (pts : List Pt) (eps2 : ℚ) (i j : Nat) (neigh : List (List Nat))
    (hn : neigh.length = pts.length) :
    (linkStep pts eps2 i neigh j).length = pts.length ∧
    ∀ a b, OccursIn (linkStep pts eps2 i neigh j) a b ↔
      OccursIn neigh a b ∨ (Within pts eps2 i j ∧ ((a = i ∧ b = j) ∨ (a = j ∧ b = i))) := by
  by_cases hw : Within pts eps2 i j
  · obtain ⟨hi, hj⟩ := within_lt pts eps2 i j hw
    obtain ⟨pa, pb, ha, hb, hd⟩ := hw
    have hstep : linkStep pts eps2 i neigh j = pushAt (pushAt neigh i j) j i := by
      simp [linkStep, ha, hb, hd]
    rw [hstep]
    refine ⟨by rw [length_pushAt, length_pushAt, hn], ?_⟩
    intro a b
    rw [occursIn_pushAt _ j i a b (by rw [length_pushAt, hn]; exact hj),
      occursIn_pushAt _ i j a b (by rw [hn]; exact hi)]
    have hw2 : Within pts eps2 i j := ⟨pa, pb, ha, hb, hd⟩
    constructor
    · rintro ((h | h) | h)
      · exact Or.inl h
      · exact Or.inr ⟨hw2, Or.inl h⟩
      · exact Or.inr ⟨hw2, Or.inr h⟩
    · rintro (h | ⟨_, h | h⟩)
      · exact Or.inl (Or.inl h)
      · exact Or.inl (Or.inr h)
      · exact Or.inr h
  · have hstep : linkStep pts eps2 i neigh j = neigh := by
      unfold linkStep
      split
      · rename_i pa pb ha hb
        have hd : ¬ dist2 pa pb ≤ eps2 := fun hd => hw ⟨pa, pb, ha, hb, hd⟩
        rw [if_neg hd]
      · rfl
    rw [hstep]
    refine ⟨hn, ?_⟩
    intro a b
    constructor
    · intro h
      exact Or.inl h
    · rintro (h | ⟨h, _⟩)
      · exact h
      · exact absurd h hw

/-- A fold of steps that each keep the length and add the pairs `R x` adds the pairs of
all steps. -/
lemma foldl_occursIn {ι : Type} (n : Nat) (f : List (List Nat) → ι → List (List Nat))
    (R : ι → Nat → Nat → Prop)
    (hf : ∀ (N : List (List Nat)) (x : ι), N.length = n →
      (f N x).length = n ∧ ∀ a b, OccursIn (f N x) a b ↔ OccursIn N a b ∨ R x a b) :
    ∀ (l : List ι) (N : List (List Nat)), N.length = n →
      (l.foldl f N).length = n ∧
      ∀ a b, OccursIn (l.foldl f N) a b ↔ OccursIn N a b ∨ ∃ x ∈ l, R x a b := by
  intro l
  induction l with
  | nil =>
    intro N hN
    exact ⟨hN, fun a b => by simp⟩
  | cons x xs ih =>
    intro N hN
    obtain ⟨hlen, hocc⟩ := hf N x hN
    obtain ⟨hlen2, hocc2⟩ := ih (f N x) hlen
    refine ⟨hlen2, ?_⟩
    intro a b
    rw [List.foldl_cons, hocc2 a b, hocc a b]
    constructor
    · rintro ((h | h) | ⟨y, hy, h⟩)
      · exact Or.inl h
      · exact Or.inr ⟨x, List.mem_cons_self _ _, h⟩
      · exact Or.inr ⟨y, List.mem_cons_of_mem _ hy, h⟩
    · rintro (h | ⟨y, hy, h⟩)
      · exact Or.inl (Or.inl h)
      · rcases List.mem_cons.mp hy with rfl | hy
        · exact Or.inl (Or.inr h)
        · exact Or.inr ⟨y, hy, h⟩

lemma linkRow_spec (pts : List Pt) (eps2 : ℚ) (neigh : List (List Nat)) (i : Nat)
    (hn : neigh.length = pts.length) :
    (linkRow pts eps2 neigh i).length = pts.length ∧
    ∀ a b, OccursIn (linkRow pts eps2 neigh i) a b ↔
      OccursIn neigh a b ∨
        ∃ j ∈ List.range' (i + 1) (pts.length - (i + 1)),
          Within pts eps2 i j ∧ ((a = i ∧ b = j) ∨ (a = j ∧ b = i)) :=
  foldl_occursIn pts.length (linkStep pts eps2 i)
    (fun j a b => Within pts eps2 i j ∧ ((a = i ∧ b = j) ∨ (a = j ∧ b = i)))
    (fun N j hN => linkStep_spec pts eps2 i j N hN) _ neigh hn

lemma length_buildNeigh (pts : List Pt) (eps : ℚ) :
    (buildNeigh pts eps).length = pts.length :=
  (foldl_occursIn pts.length (linkRow pts (eps * eps))
    (fun i a b => ∃ j ∈ List.range' (i + 1) (pts.length - (i + 1)),
      Within pts (eps * eps) i j ∧ ((a = i ∧ b = j) ∨ (a = j ∧ b = i)))
    (fun N i hN => linkRow_spec pts (eps * eps) N i hN) _ _ (by simp)).1

/-- The neighbour lists hold exactly the pairs of distinct points within `eps`. -/
lemma occursIn_buildNeigh (pts : List Pt) (eps : ℚ) (a b : Nat) :
    OccursIn (buildNeigh pts eps) a b ↔ a ≠ b ∧ Within pts (eps * eps) a b := by
  have key := (foldl_occursIn pts.length (linkRow pts (eps * eps))
    (fun i a b => ∃ j ∈ List.range' (i + 1) (pts.length - (i + 1)),
      Within pts (eps * eps) i j ∧ ((a = i ∧ b = j) ∨ (a = j ∧ b = i)))
    (fun N i hN => linkRow_spec pts (eps * eps) N i hN) (List.range pts.length)
    (List.replicate pts.length []) (by simp)).2 a b
  rw [buildNeigh, key]
  have hempty : ¬ OccursIn (List.replicate pts.length ([] : List Nat)) a b := by
    rintro ⟨l, hl, hb⟩
    rw [List.getElem?_replicate] at hl
    split at hl
    · cases hl
      simp at hb
    · cases hl
  constructor
  · rintro (h | ⟨i, _, j, hj, hw, hab⟩)
    · exact absurd h hempty
    · rw [List.mem_range'_1] at hj
      rcases hab with ⟨rfl, rfl⟩ | ⟨rfl, rfl⟩
      · exact ⟨by omega, hw⟩
      · exact ⟨by omega, within_symm _ _ _ _ hw⟩
  · rintro ⟨hne, hw⟩
    obtain ⟨ha, hb⟩ := within_lt _ _ _ _ hw
    right
    rcases Nat.lt_or_gt_of_ne hne with hlt | hgt
    · exact ⟨a, List.mem_range.mpr ha, b, by rw [List.mem_range'_1]; omega, hw,
        Or.inl ⟨rfl, rfl⟩⟩
    · exact ⟨b, List.mem_range.mpr hb, a, by rw [List.mem_range'_1]; omega,
        within_symm _ _ _ _ hw, Or.inr ⟨rfl, rfl⟩⟩

/-- C8: the neighbour lists built by `runDBSCAN` are symmetric, and `j` occurs in
`neigh[i]` exactly when `i ≠ j` and the squared distance between the points `i` and `j`
is at most `eps` squared. -/
theorem buildNeigh_symmetric_exact (pts : List Pt) (eps : ℚ) (i j : Nat) :
    (OccursIn (buildNeigh pts eps) i j ↔ OccursIn (buildNeigh pts eps) j i) ∧
    (OccursIn (buildNeigh pts eps) i j ↔
      i ≠ j ∧ ∃ a b, pts[i]? = some a ∧ pts[j]? = some b ∧ dist2 a b ≤ eps * eps) := by
  refine ⟨?_, occursIn_buildNeigh pts eps i j⟩
  rw [occursIn_buildNeigh, occursIn_buildNeigh]
  constructor
  · rintro ⟨hne, hw⟩
    exact ⟨fun e => hne e.symm, within_symm _ _ _ _ hw⟩
  · rintro ⟨hne, hw⟩
    exact ⟨fun e => hne e.symm, within_symm _ _ _ _ hw⟩

/-! ## Termination of the label propagation -/

lemma count_set_unvisited (labels : List Int) (nb : Nat) (cid : Int)
    (hcid : cid ≠ unvisited) (h : labels[nb]? = some unvisited) :
    (labels.set nb cid).count unvisited + 1 = labels.count unvisited := by
  have hlt : nb < labels.length := by
    by_contra hcon
    rw [List.getElem?_eq_none (Nat.le_of_not_lt hcon)] at h
    cases h
  have hget : labels[nb] = unvisited := by
    rw [List.getElem?_eq_getElem hlt] at h
    exact Option.some.inj h
  have hmem : unvisited ∈ labels := by
    rw [← hget]
    exact List.getElem_mem hlt
  have hpos : 0 < labels.count unvisited := List.count_pos_iff.mpr hmem
  rw [List.count_set _ _ _ _ hlt]
  simp only [hget, beq_self_eq_true, if_true]
  have : (cid == unvisited) = false := by simpa using hcid
  simp only [this]
  simp
  omega

lemma visitNeighbours_measure (core : List Bool) (cid : Int) (hcid : cid ≠ unvisited) :
    ∀ (nbs : List Nat) (labels : List Int) (q : List Nat),
      (visitNeighbours core cid nbs (labels, q)).1.length = labels.length ∧
      (visitNeighbours core cid nbs (labels, q)).1.count unvisited +
          (visitNeighbours core cid nbs (labels, q)).2.length ≤
        labels.count unvisited + q.length ∧
      q.length ≤ (visitNeighbours core cid nbs (labels, q)).2.length := by
  intro nbs
  induction nbs with
  | nil => intro labels q; simp [visitNeighbours]
  | cons nb nbs ih =>
    intro labels q
    rw [visitNeighbours]
    by_cases h : labels[nb]? = some unvisited
    · rw [if_pos h]
      obtain ⟨h1, h2, h3⟩ :=
        ih (labels.set nb cid) (if core.getD nb false then q ++ [nb] else q)
      have hc := count_set_unvisited labels nb cid hcid h
      have hq : (if core.getD nb false then q ++ [nb] else q).length ≤ q.length + 1 := by
        split <;> simp
      have hq2 : q.length ≤ (if core.getD nb false then q ++ [nb] else q).length := by
        split <;> simp
      refine ⟨by rw [h1]; simp, ?_, ?_⟩
      · omega
      · omega
    · rw [if_neg h]
      exact ih labels q

lemma expandQueue_total (neigh : List (List Nat)) (core : List Bool) (cid : Int)
    (hcid : cid ≠ unvisited) :
    ∀ (fuel : Nat) (labels : List Int) (q : List Nat) (qi : Nat),
      labels.count unvisited + (q.length - qi) < fuel →
      ∃ out, expandQueue neigh core cid fuel labels q qi = some out ∧
        out.length = labels.length := by
  intro fuel
  induction fuel with
  | zero => intro labels q qi h; omega
  | succ fuel ih =>
    intro labels q qi h
    rw [expandQueue]
    cases hq : q[qi]? with
    | none => exact ⟨labels, rfl, rfl⟩
    | some p =>
      have hlt : qi < q.length := by
        by_contra hcon
        rw [List.getElem?_eq_none (Nat.le_of_not_lt hcon)] at hq
        cases hq
      obtain ⟨h1, h2, h3⟩ :=
        visitNeighbours_measure core cid hcid (neigh.getD p []) labels q
      obtain ⟨out, hout, hlen⟩ :=
        ih (visitNeighbours core cid (neigh.getD p []) (labels, q)).1
          (visitNeighbours core cid (neigh.getD p []) (labels, q)).2 (qi + 1) (by omega)
      exact ⟨out, hout, by rw [hlen, h1]⟩

lemma labelLoop_total (neigh : List (List Nat)) (core : List Bool) (n : Nat) :
    ∀ (is : List Nat) (labels : List Int) (cid : Nat), labels.length = n →
      ∃ out, labelLoop neigh core (n + 1) is (labels, cid) = some out ∧
        out.1.length = n := by
  intro is
  induction is with
  | nil => intro labels cid h; exact ⟨(labels, cid), rfl, h⟩
  | cons i is ih =>
    intro labels cid h
    rw [labelLoop]
    by_cases hu : labels[i]? = some unvisited
    · have hne : ¬ (labels[i]? ≠ some unvisited) := fun hcon => hcon hu
      rw [if_neg hne]
      by_cases hcore : core.getD i false = true
      · have hnc : ¬ ((!core.getD i false) = true) := by
          rw [hcore]
          decide
        rw [if_neg hnc]
        have hcid : (cid : Int) ≠ unvisited := by
          simp only [unvisited]
          omega
        have hc := count_set_unvisited labels i cid hcid hu
        have hle : labels.count unvisited ≤ n := by
          rw [← h]
          exact List.count_le_length _ _
        obtain ⟨l1, hl1, hlen1⟩ :=
          expandQueue_total neigh core cid hcid (n + 1) (labels.set i cid) [i] 0
            (by simp only [List.length_singleton]; omega)
        rw [hl1]
        exact ih l1 (cid + 1) (by rw [hlen1]; simp [h])
      · have hnc : (!core.getD i false) = true := by
          rw [Bool.not_eq_true] at hcore
          rw [hcore]
          rfl
        rw [if_pos hnc]
        exact ih (labels.set i (-1)) cid (by simp [h])
    · rw [if_pos hu]
      exact ih labels cid h

/-- The function `runDBSCAN` returns a result on every input. -/
lemma runDBSCAN_total (pts : List Pt) (eps : ℚ) (minPts : Nat) :
    ∃ labels, labels.length = pts.length ∧
      runDBSCAN pts eps minPts =
        some { labels := labels, core := coreFlags (buildNeigh pts eps) minPts } := by
  obtain ⟨out, hout, hlen⟩ :=
    labelLoop_total (buildNeigh pts eps) (coreFlags (buildNeigh pts eps) minPts) pts.length
      (List.range pts.length) (List.replicate pts.length unvisited) 0 (by simp)
  refine ⟨out.1, hlen, ?_⟩
  simp only [runDBSCAN, hout, Option.map_some']

lemma coreFlags_mono (neigh : List (List Nat)) (m1 m2 : Nat) (h : m1 ≤ m2) :
    (∀ i : Nat, (coreFlags neigh m2)[i]? = some true → (coreFlags neigh m1)[i]? = some true) ∧
    (coreFlags neigh m2).count true ≤ (coreFlags neigh m1).count true := by
  constructor
  · intro i hi
    simp only [coreFlags, List.getElem?_map] at hi ⊢
    cases hl : neigh[i]? with
    | none => rw [hl] at hi; simp at hi
    | some l =>
      rw [hl] at hi
      simp only [Option.map_some', Option.some.injEq, decide_eq_true_eq] at hi ⊢
      omega
  · simp only [coreFlags, List.count_eq_countP, List.countP_map]
    apply List.countP_mono_left
    intro l _ hl
    simp only [Function.comp_apply, beq_true, decide_eq_true_eq] at hl ⊢
    omega

/-- C9: for `minPts1 ≤ minPts2`, `runDBSCAN` returns a result for both, every point that
is core with `minPts2` is core with `minPts1`, and the number of core points with
`minPts2` is at most the number with `minPts1`. -/
theorem runDBSCAN_core_antitone (pts : List Pt) (eps : ℚ) (minPts1 minPts2 : Nat)
    (h : minPts1 ≤ minPts2) :
    ∃ r1 r2, runDBSCAN pts eps minPts1 = some r1 ∧ runDBSCAN pts eps minPts2 = some r2 ∧
      (∀ i : Nat, r2.core[i]? = some true → r1.core[i]? = some true) ∧
      r2.core.count true ≤ r1.core.count true := by
  obtain ⟨l1, _, h1⟩ := runDBSCAN_total pts eps minPts1
  obtain ⟨l2, _, h2⟩ := runDBSCAN_total pts eps minPts2
  exact ⟨_, _, h1, h2, coreFlags_mono (buildNeigh pts eps) minPts1 minPts2 h⟩

/-- Witness for C9: the three points on a line with `minPts` 2 and 3. -/
theorem runDBSCAN_core_antitone_witness :
    2 ≤ 3 ∧
    ∃ r1 r2, runDBSCAN linePoints 1 2 = some r1 ∧ runDBSCAN linePoints 1 3 = some r2 ∧
      (∀ i : Nat, r2.core[i]? = some true → r1.core[i]? = some true) ∧
      r2.core.count true ≤ r1.core.count true :=
  ⟨by decide, runDBSCAN_core_antitone linePoints 1 2 3 (by decide)⟩

lemma buildNeigh_linePoints : buildNeigh linePoints 1 = [[1], [0, 2], [1]] := by
  norm_num [buildNeigh, linkRow, linkStep, pushAt, dist2, linePoints, List.range,
    List.range.loop, List.range']
  rfl

/-- C3, at the failing input: for the three points on a line with `eps = 1` and
`minPts = 3`, point `0` is not core and lies within `eps` of the core point `1`, yet
`runDBSCAN` leaves it labelled `-1`. -/
theorem runDBSCAN_border_before_core_is_noise :
    runDBSCAN linePoints 1 3 =
      some { labels := [-1, 0, 0], core := [false, true, false] } ∧
    (∃ a b, linePoints[0]? = some a ∧ linePoints[1]? = some b ∧ dist2 a b ≤ 1 * 1) := by
  constructor
  · rw [runDBSCAN, buildNeigh_linePoints]
    simp [coreFlags, labelLoop, expandQueue, visitNeighbours, unvisited, linePoints,
      List.range, List.range.loop]
  · exact ⟨{ x := 0, y := 0 }, { x := 1, y := 0 }, rfl, rfl, by norm_num [dist2]⟩

/-! ## Correctness of the label propagation -/

lemma unvisited_ne_natCast (c : Nat) : (c : Int) ≠ unvisited := by
  simp only [unvisited]
  omega

lemma getElem?_set_unvisited (labels : List Int) (nb a : Nat) (x : Int)
    (h : labels[nb]? = some unvisited) :
    (labels.set nb x)[a]? = if nb = a then some x else labels[a]? := by
  have hlt : nb < labels.length := by
    by_contra hcon
    rw [List.getElem?_eq_none (Nat.le_of_not_lt hcon)] at h
    cases h
  rw [List.getElem?_set]
  by_cases hna : nb = a
  · rw [if_pos hna, if_pos hna, if_pos hlt]
  · rw [if_neg hna, if_neg hna]

lemma keeps_refl (l : List Int) : Keeps l l := ⟨rfl, fun _ _ h _ => h⟩

lemma keeps_trans (l1 l2 l3 : List Int) (h12 : Keeps l1 l2) (h23 : Keeps l2 l3) :
    Keeps l1 l3 :=
  ⟨h23.1.trans h12.1, fun a v h hv => h23.2 a v (h12.2 a v h hv) hv⟩

lemma keeps_set (labels : List Int) (nb : Nat) (x : Int)
    (h : labels[nb]? = some unvisited) : Keeps labels (labels.set nb x) := by
  refine ⟨by simp, ?_⟩
  intro a v ha hv
  rw [getElem?_set_unvisited labels nb a x h]
  by_cases hna : nb = a
  · subst hna
    rw [h] at ha
    exact absurd (Option.some.inj ha).symm hv
  · rw [if_neg hna]
    exact ha

lemma keeps_ne (l1 l2 : List Int) (h : Keeps l1 l2) (a : Nat)
    (ha : l1[a]? ≠ some unvisited) : l2[a]? ≠ some unvisited := by
  cases h1 : l1[a]? with
  | none =>
    have hge : l1.length ≤ a := List.getElem?_eq_none_iff.mp h1
    rw [List.getElem?_eq_none (by rw [h.1]; exact hge)]
    simp
  | some v =>
    have hv : v ≠ unvisited := by
      intro e
      rw [h1, e] at ha
      exact ha rfl
    rw [h.2 a v h1 hv]
    intro e
    exact hv (Option.some.inj e)

/-- Labelling one unvisited neighbour `nb` of `p` with the current cluster id, and
queueing it when it is core, keeps the expansion invariant. -/
lemma expandInv_set (neigh : List (List Nat)) (core : List Bool) (n c : Nat)
    (labels : List Int) (q : List Nat) (nb p : Nat)
    (hinv : ExpandInv neigh core n c labels q)
    (hnb : labels[nb]? = some unvisited) (hp : OccursIn neigh p nb) :
    ExpandInv neigh core n c (labels.set nb (c : Int))
      (if core.getD nb false then q ++ [nb] else q) := by
  have key : ∀ a : Nat, (labels.set nb (c : Int))[a]? =
      if nb = a then some (c : Int) else labels[a]? :=
    fun a => getElem?_set_unvisited labels nb a c hnb
  have hk := keeps_set labels nb (c : Int) hnb
  constructor
  · rw [List.length_set]
    exact hinv.len
  · intro a v h
    rw [key] at h
    by_cases hna : nb = a
    · rw [if_pos hna] at h
      have hv : v = (c : Int) := (Option.some.inj h).symm
      right
      right
      omega
    · rw [if_neg hna] at h
      exact hinv.range a v h
  · intro a hc h
    rw [key] at h
    by_cases hna : nb = a
    · rw [if_pos hna] at h
      have hv : (c : Int) = -1 := Option.some.inj h
      omega
    · rw [if_neg hna] at h
      exact hinv.coreNotNoise a hc h
  · intro a v hc h hv hvc b hb
    rw [key] at h
    by_cases hna : nb = a
    · rw [if_pos hna] at h
      exact absurd (Option.some.inj h).symm hvc
    · rw [if_neg hna] at h
      obtain ⟨h1, h2⟩ := hinv.closedOld a v hc h hv hvc b hb
      exact ⟨keeps_ne _ _ hk b h1, fun hcb => hk.2 b v (h2 hcb) hv⟩
  · intro a v h hv
    rw [key] at h
    by_cases hna : nb = a
    · subst hna
      exact Or.inr ⟨p, hp⟩
    · rw [if_neg hna] at h
      exact hinv.reached a v h hv
  · intro a hc h
    rw [key] at h
    by_cases hna : nb = a
    · subst hna
      have hc2 : core.getD nb false = true := hc
      rw [if_pos hc2]
      exact List.mem_append.mpr (Or.inr (List.mem_singleton.mpr rfl))
    · rw [if_neg hna] at h
      have hq := hinv.inQueue a hc h
      split
      · exact List.mem_append.mpr (Or.inl hq)
      · exact hq
  · intro a ha
    have hcases : a ∈ q ∨ (a = nb ∧ core.getD nb false = true) := by
      by_cases hc : core.getD nb false = true
      · rw [if_pos hc] at ha
        rcases List.mem_append.mp ha with h | h
        · exact Or.inl h
        · exact Or.inr ⟨List.mem_singleton.mp h, hc⟩
      · rw [if_neg hc] at ha
        exact Or.inl ha
    rcases hcases with hq | ⟨rfl, hc⟩
    · obtain ⟨hc, hl⟩ := hinv.queueOK a hq
      exact ⟨hc, hk.2 a c hl (unvisited_ne_natCast c)⟩
    · refine ⟨hc, ?_⟩
      rw [key, if_pos rfl]

/-- The loop over the neighbours of `p` keeps the expansion invariant, keeps every
label already set and every queue entry, and leaves all those neighbours labelled. -/
lemma visitNeighbours_inv (neigh : List (List Nat)) (core : List Bool) (n c p : Nat) :
    ∀ (nbs : List Nat) (labels : List Int) (q : List Nat),
      ExpandInv neigh core n c labels q → (∀ nb ∈ nbs, OccursIn neigh p nb) →
      ExpandInv neigh core n c (visitNeighbours core (c : Int) nbs (labels, q)).1
        (visitNeighbours core (c : Int) nbs (labels, q)).2 ∧
      Keeps labels (visitNeighbours core (c : Int) nbs (labels, q)).1 ∧
      (∀ (k x : Nat), q[k]? = some x →
        (visitNeighbours core (c : Int) nbs (labels, q)).2[k]? = some x) ∧
      (∀ nb ∈ nbs, (visitNeighbours core (c : Int) nbs (labels, q)).1[nb]? ≠
        some unvisited) := by
  intro nbs
  induction nbs with
  | nil =>
    intro labels q hinv _
    simp only [visitNeighbours]
    exact ⟨hinv, keeps_refl labels, fun _ _ h => h, fun nb h => absurd h (List.not_mem_nil nb)⟩
  | cons nb nbs ih =>
    intro labels q hinv hocc
    have hocc2 : ∀ x ∈ nbs, OccursIn neigh p x :=
      fun x hx => hocc x (List.mem_cons_of_mem _ hx)
    rw [visitNeighbours]
    by_cases h : labels[nb]? = some unvisited
    · rw [if_pos h]
      have hstep := expandInv_set neigh core n c labels q nb p hinv h
        (hocc nb (List.mem_cons_self _ _))
      obtain ⟨h1, h2, h3, h4⟩ :=
        ih (labels.set nb (c : Int)) (if core.getD nb false then q ++ [nb] else q)
          hstep hocc2
      refine ⟨h1, keeps_trans _ _ _ (keeps_set labels nb (c : Int) h) h2, ?_, ?_⟩
      · intro k x hk
        apply h3
        split
        · have hlt : k < q.length := by
            by_contra hcon
            rw [List.getElem?_eq_none (Nat.le_of_not_lt hcon)] at hk
            cases hk
          rw [List.getElem?_append_left hlt]
          exact hk
        · exact hk
      · intro x hx
        rcases List.mem_cons.mp hx with rfl | hx
        · apply keeps_ne _ _ h2
          rw [getElem?_set_unvisited labels x x c h, if_pos rfl]
          intro e
          exact unvisited_ne_natCast c (Option.some.inj e)
        · exact h4 x hx
    · rw [if_neg h]
      obtain ⟨h1, h2, h3, h4⟩ := ih labels q hinv hocc2
      refine ⟨h1, h2, h3, ?_⟩
      intro x hx
      rcases List.mem_cons.mp hx with rfl | hx
      · exact keeps_ne _ _ h2 x h
      · exact h4 x hx

lemma occursIn_iff_mem_getD (neigh : List (List Nat)) (p b : Nat) :
    OccursIn neigh p b ↔ b ∈ neigh.getD p [] := by
  unfold OccursIn
  rw [List.getD_eq_getElem?_getD]
  cases neigh[p]? with
  | none => simp
  | some l => simp

/-- When the queue is exhausted the loop invariant holds with the next cluster id. -/
lemma expandInv_finish (neigh : List (List Nat)) (core : List Bool) (n c : Nat)
    (labels : List Int) (q : List Nat) (qi : Nat) (hg : GraphOK neigh n)
    (hinv : ExpandInv neigh core n c labels q) (hproc : Processed neigh labels q qi)
    (hend : q[qi]? = none) : LoopInv neigh core n labels (c + 1) := by
  have hqi : q.length ≤ qi := List.getElem?_eq_none_iff.mp hend
  constructor
  · exact hinv.len
  · intro a v h
    rcases hinv.range a v h with h1 | h1 | h1
    · exact Or.inl h1
    · exact Or.inr (Or.inl h1)
    · right
      right
      omega
  · exact hinv.coreNotNoise
  · intro a v hc h hv b hb
    by_cases hvc : v = (c : Int)
    · subst hvc
      have haq : a ∈ q := hinv.inQueue a hc h
      obtain ⟨k, hk, hka⟩ := List.getElem_of_mem haq
      have hka2 : q[k]? = some a := by
        rw [List.getElem?_eq_getElem hk, hka]
      have hlab : labels[b]? ≠ some unvisited :=
        hproc k a (Nat.lt_of_lt_of_le hk hqi) hka2 b hb
      refine ⟨hlab, ?_⟩
      intro hcb
      have hbn : b < labels.length := by
        rw [hinv.len]
        exact hg.lt a b hb
      have hbw : labels[b]? = some labels[b] := List.getElem?_eq_getElem hbn
      by_cases hw : labels[b] = (c : Int)
      · rw [hbw, hw]
      · have hwu : labels[b] ≠ unvisited := by
          intro e
          rw [hbw, e] at hlab
          exact hlab rfl
        have hback := (hinv.closedOld b labels[b] hcb hbw hwu hw a (hg.symm a b hb)).2 hc
        rw [h] at hback
        exact absurd (Option.some.inj hback).symm hw
    · exact hinv.closedOld a v hc h hv hvc b hb
  · exact hinv.reached

/-- The queue loop returns, keeps every label already set, and re-establishes the loop
invariant with the next cluster id. -/
lemma expandQueue_inv (neigh : List (List Nat)) (core : List Bool) (n c : Nat)
    (hg : GraphOK neigh n) :
    ∀ (fuel : Nat) (labels : List Int) (q : List Nat) (qi : Nat),
      ExpandInv neigh core n c labels q → Processed neigh labels q qi →
      labels.count unvisited + (q.length - qi) < fuel →
      ∃ out, expandQueue neigh core (c : Int) fuel labels q qi = some out ∧
        Keeps labels out ∧ LoopInv neigh core n out (c + 1) := by
  intro fuel
  induction fuel with
  | zero => intro labels q qi _ _ h; omega
  | succ fuel ih =>
    intro labels q qi hinv hproc hfuel
    rw [expandQueue]
    cases hq : q[qi]? with
    | none =>
      exact ⟨labels, rfl, keeps_refl labels,
        expandInv_finish neigh core n c labels q qi hg hinv hproc hq⟩
    | some p =>
      have hlt : qi < q.length := by
        by_contra hcon
        rw [List.getElem?_eq_none (Nat.le_of_not_lt hcon)] at hq
        cases hq
      obtain ⟨m1, m2, m3⟩ :=
        visitNeighbours_measure core (c : Int) (unvisited_ne_natCast c)
          (neigh.getD p []) labels q
      obtain ⟨h1, h2, h3, h4⟩ :=
        visitNeighbours_inv neigh core n c p (neigh.getD p []) labels q hinv
          (fun nb hnb => (occursIn_iff_mem_getD neigh p nb).mpr hnb)
      have hproc2 : Processed neigh
          (visitNeighbours core (c : Int) (neigh.getD p []) (labels, q)).1
          (visitNeighbours core (c : Int) (neigh.getD p []) (labels, q)).2 (qi + 1) := by
        intro k x hk hkx b hb
        rcases Nat.lt_or_ge k qi with hklt | hkge
        · have hkq : k < q.length := Nat.lt_trans hklt hlt
          have hold : q[k]? = some q[k] := List.getElem?_eq_getElem hkq
          have hnew := h3 k q[k] hold
          rw [hkx] at hnew
          have hx : x = q[k] := Option.some.inj hnew
          rw [hx] at hb
          exact keeps_ne _ _ h2 b (hproc k q[k] hklt hold b hb)
        · have hkeq : k = qi := by omega
          subst hkeq
          have hnew := h3 k p hq
          rw [hkx] at hnew
          have hx : x = p := Option.some.inj hnew
          rw [hx] at hb
          exact h4 b ((occursIn_iff_mem_getD neigh p b).mp hb)
      obtain ⟨out, hout, hkeep, hloop⟩ :=
        ih (visitNeighbours core (c : Int) (neigh.getD p []) (labels, q)).1
          (visitNeighbours core (c : Int) (neigh.getD p []) (labels, q)).2 (qi + 1)
          h1 hproc2 (by omega)
      exact ⟨out, hout, keeps_trans _ _ _ h2 hkeep, hloop⟩

/-- Labelling an unvisited non-core point as noise keeps the loop invariant. -/
lemma loopInv_noise (neigh : List (List Nat)) (core : List Bool) (n c : Nat)
    (labels : List Int) (i : Nat) (hinv : LoopInv neigh core n labels c)
    (hu : labels[i]? = some unvisited) (hnc : ¬ IsCore core i) :
    LoopInv neigh core n (labels.set i (-1)) c := by
  have key : ∀ a : Nat, (labels.set i (-1))[a]? =
      if i = a then some (-1) else labels[a]? :=
    fun a => getElem?_set_unvisited labels i a (-1) hu
  have hk := keeps_set labels i (-1) hu
  constructor
  · rw [List.length_set]
    exact hinv.len
  · intro a v h
    rw [key] at h
    by_cases hia : i = a
    · rw [if_pos hia] at h
      exact Or.inr (Or.inl (Option.some.inj h).symm)
    · rw [if_neg hia] at h
      exact hinv.range a v h
  · intro a hc h
    rw [key] at h
    by_cases hia : i = a
    · subst hia
      exact hnc hc
    · rw [if_neg hia] at h
      exact hinv.coreNotNoise a hc h
  · intro a v hc h hv b hb
    rw [key] at h
    by_cases hia : i = a
    · subst hia
      exact absurd hc hnc
    · rw [if_neg hia] at h
      obtain ⟨h1, h2⟩ := hinv.closed a v hc h hv b hb
      exact ⟨keeps_ne _ _ hk b h1, fun hcb => hk.2 b v (h2 hcb) hv⟩
  · intro a v h hv
    rw [key] at h
    by_cases hia : i = a
    · rw [if_pos hia] at h
      have : (-1 : Int) = v := Option.some.inj h
      omega
    · rw [if_neg hia] at h
      exact hinv.reached a v h hv

/-- Labelling an unvisited core point with the next cluster id and queueing it starts an
expansion in a state that satisfies the expansion invariant. -/
lemma expandInv_start (neigh : List (List Nat)) (core : List Bool) (n c : Nat)
    (labels : List Int) (i : Nat) (hinv : LoopInv neigh core n labels c)
    (hu : labels[i]? = some unvisited) (hc : IsCore core i) :
    ExpandInv neigh core n c (labels.set i (c : Int)) [i] := by
  have key : ∀ a : Nat, (labels.set i (c : Int))[a]? =
      if i = a then some (c : Int) else labels[a]? :=
    fun a => getElem?_set_unvisited labels i a c hu
  have hk := keeps_set labels i (c : Int) hu
  constructor
  · rw [List.length_set]
    exact hinv.len
  · intro a v h
    rw [key] at h
    by_cases hia : i = a
    · rw [if_pos hia] at h
      have hv : (c : Int) = v := Option.some.inj h
      right
      right
      omega
    · rw [if_neg hia] at h
      rcases hinv.range a v h with h1 | h1 | h1
      · exact Or.inl h1
      · exact Or.inr (Or.inl h1)
      · right
        right
        omega
  · intro a hca h
    rw [key] at h
    by_cases hia : i = a
    · rw [if_pos hia] at h
      have hv : (c : Int) = -1 := Option.some.inj h
      omega
    · rw [if_neg hia] at h
      exact hinv.coreNotNoise a hca h
  · intro a v hca h hv hvc b hb
    rw [key] at h
    by_cases hia : i = a
    · rw [if_pos hia] at h
      exact absurd (Option.some.inj h).symm hvc
    · rw [if_neg hia] at h
      obtain ⟨h1, h2⟩ := hinv.closed a v hca h hv b hb
      exact ⟨keeps_ne _ _ hk b h1, fun hcb => hk.2 b v (h2 hcb) hv⟩
  · intro a v h hv
    rw [key] at h
    by_cases hia : i = a
    · subst hia
      exact Or.inl hc
    · rw [if_neg hia] at h
      exact hinv.reached a v h hv
  · intro a _ h
    rw [key] at h
    by_cases hia : i = a
    · subst hia
      exact List.mem_singleton.mpr rfl
    · rw [if_neg hia] at h
      rcases hinv.range a (c : Int) h with h1 | h1 | h1
      · exact absurd h1 (unvisited_ne_natCast c)
      · omega
      · omega
  · intro a ha
    have hai : a = i := List.mem_singleton.mp ha
    subst hai
    refine ⟨hc, ?_⟩
    rw [key, if_pos rfl]

/-- The labelling loop returns; its result satisfies the loop invariant, keeps every
label already set and has a label for every index it went over. -/
lemma labelLoop_inv (neigh : List (List Nat)) (core : List Bool) (n : Nat)
    (hg : GraphOK neigh n) :
    ∀ (is : List Nat) (labels : List Int) (c : Nat), LoopInv neigh core n labels c →
      ∃ out, labelLoop neigh core (n + 1) is (labels, c) = some out ∧
        LoopInv neigh core n out.1 out.2 ∧ Keeps labels out.1 ∧
        ∀ i ∈ is, out.1[i]? ≠ some unvisited := by
  intro is
  induction is with
  | nil =>
    intro labels c hinv
    exact ⟨(labels, c), rfl, hinv, keeps_refl labels,
      fun i h => absurd h (List.not_mem_nil i)⟩
  | cons i is ih =>
    intro labels c hinv
    rw [labelLoop]
    by_cases hu : labels[i]? = some unvisited
    · have hne : ¬ (labels[i]? ≠ some unvisited) := fun hcon => hcon hu
      rw [if_neg hne]
      by_cases hcore : core.getD i false = true
      · have hnc : ¬ ((!core.getD i false) = true) := by
          rw [hcore]
          decide
        rw [if_neg hnc]
        have hstart := expandInv_start neigh core n c labels i hinv hu hcore
        have hcnt := count_set_unvisited labels i (c : Int) (unvisited_ne_natCast c) hu
        have hle : labels.count unvisited ≤ n := by
          rw [← hinv.len]
          exact List.count_le_length _ _
        have hproc : Processed neigh (labels.set i (c : Int)) [i] 0 := by
          intro k p hk
          omega
        obtain ⟨l1, hl1, hkeep1, hloop1⟩ :=
          expandQueue_inv neigh core n c hg (n + 1) (labels.set i (c : Int)) [i] 0
            hstart hproc (by simp only [List.length_singleton]; omega)
        rw [hl1]
        obtain ⟨out, hout, hloop, hkeep, hall⟩ := ih l1 (c + 1) hloop1
        have hk0 := keeps_set labels i (c : Int) hu
        refine ⟨out, hout, hloop, keeps_trans _ _ _ hk0 (keeps_trans _ _ _ hkeep1 hkeep), ?_⟩
        intro x hx
        rcases List.mem_cons.mp hx with rfl | hx
        · apply keeps_ne _ _ (keeps_trans _ _ _ hkeep1 hkeep)
          rw [getElem?_set_unvisited labels x x c hu, if_pos rfl]
          intro e
          exact unvisited_ne_natCast c (Option.some.inj e)
        · exact hall x hx
      · have hnc : (!core.getD i false) = true := by
          rw [Bool.not_eq_true] at hcore
          rw [hcore]
          rfl
        rw [if_pos hnc]
        have hnoise := loopInv_noise neigh core n c labels i hinv hu hcore
        obtain ⟨out, hout, hloop, hkeep, hall⟩ := ih (labels.set i (-1)) c hnoise
        refine ⟨out, hout, hloop, keeps_trans _ _ _ (keeps_set labels i (-1) hu) hkeep, ?_⟩
        intro x hx
        rcases List.mem_cons.mp hx with rfl | hx
        · apply keeps_ne _ _ hkeep
          rw [getElem?_set_unvisited labels x x (-1) hu, if_pos rfl]
          intro e
          have : (-1 : Int) = unvisited := Option.some.inj e
          simp [unvisited] at this
        · exact hall x hx
    · rw [if_pos hu]
      obtain ⟨out, hout, hloop, hkeep, hall⟩ := ih labels c hinv
      refine ⟨out, hout, hloop, hkeep, ?_⟩
      intro x hx
      rcases List.mem_cons.mp hx with rfl | hx
      · exact keeps_ne _ _ hkeep x hu
      · exact hall x hx

lemma graphOK_buildNeigh (pts : List Pt) (eps : ℚ) :
    GraphOK (buildNeigh pts eps) pts.length := by
  constructor
  · intro a b h
    rw [occursIn_buildNeigh] at h ⊢
    exact ⟨fun e => h.1 e.symm, within_symm _ _ _ _ h.2⟩
  · intro a b h
    rw [occursIn_buildNeigh] at h
    exact (within_lt _ _ _ _ h.2).2

lemma loopInv_init (neigh : List (List Nat)) (core : List Bool) (n : Nat) :
    LoopInv neigh core n (List.replicate n unvisited) 0 := by
  have key : ∀ (a : Nat) (v : Int), (List.replicate n unvisited)[a]? = some v →
      v = unvisited := by
    intro a v h
    rw [List.getElem?_replicate] at h
    split at h
    · exact (Option.some.inj h).symm
    · cases h
  have hne : unvisited ≠ -1 := by simp [unvisited]
  constructor
  · simp
  · intro a v h
    exact Or.inl (key a v h)
  · intro a _ h
    exact hne (key a (-1) h).symm
  · intro a v _ h hv
    exact absurd (key a v h) hv
  · intro a v h hv
    have := key a v h
    simp only [unvisited] at this
    omega

lemma isCore_coreFlags (neigh : List (List Nat)) (minPts a : Nat) :
    IsCore (coreFlags neigh minPts) a ↔
      ∃ l, neigh[a]? = some l ∧ minPts ≤ l.length + 1 := by
  unfold IsCore coreFlags
  rw [List.getD_eq_getElem?_getD, List.getElem?_map]
  cases neigh[a]? with
  | none => simp
  | some l => simp

lemma getElem?_true_iff_isCore (core : List Bool) (a : Nat) :
    core[a]? = some true ↔ IsCore core a := by
  unfold IsCore
  rw [List.getD_eq_getElem?_getD]
  cases core[a]? with
  | none => simp
  | some b => simp

/-- The labels of `runDBSCAN`: the function returns, and the labels it returns satisfy
the loop invariant and leave no point unvisited. -/
lemma runDBSCAN_labels_spec (pts : List Pt) (eps : ℚ) (minPts : Nat) :
    ∃ (labels : List Int) (c : Nat),
      runDBSCAN pts eps minPts =
        some { labels := labels, core := coreFlags (buildNeigh pts eps) minPts } ∧
      LoopInv (buildNeigh pts eps) (coreFlags (buildNeigh pts eps) minPts) pts.length
        labels c ∧
      ∀ i : Nat, i < pts.length → ∃ v : Int, labels[i]? = some v ∧ v ≠ unvisited := by
  obtain ⟨out, hout, hloop, _, hall⟩ :=
    labelLoop_inv (buildNeigh pts eps) (coreFlags (buildNeigh pts eps) minPts) pts.length
      (graphOK_buildNeigh pts eps) (List.range pts.length)
      (List.replicate pts.length unvisited) 0 (loopInv_init _ _ _)
  refine ⟨out.1, out.2, ?_, hloop, ?_⟩
  · simp only [runDBSCAN, hout, Option.map_some']
  · intro i hi
    have hlt : i < out.1.length := by
      rw [hloop.len]
      exact hi
    refine ⟨out.1[i], List.getElem?_eq_getElem hlt, ?_⟩
    intro e
    apply hall i (List.mem_range.mpr hi)
    rw [List.getElem?_eq_getElem hlt, e]

lemma loopInv_core_label (neigh : List (List Nat)) (core : List Bool) (n c : Nat)
    (labels : List Int) (hloop : LoopInv neigh core n labels c) (i : Nat) (v : Int)
    (hc : IsCore core i) (h : labels[i]? = some v) (hv : v ≠ unvisited) : 0 ≤ v := by
  rcases hloop.range i v h with h1 | h1 | h1
  · exact absurd h1 hv
  · rw [h1] at h
    exact absurd h (hloop.coreNotNoise i hc)
  · exact h1.1

/-- Every member of a group of at least `minPts` points pairwise within `eps` is core. -/
lemma group_isCore (pts : List Pt) (eps : ℚ) (minPts : Nat) (G : Finset Nat)
    (hcard : minPts ≤ G.card) (hlt : ∀ i ∈ G, i < pts.length)
    (hpair : ∀ i ∈ G, ∀ j ∈ G, i ≠ j → Within pts (eps * eps) i j) :
    ∀ i ∈ G, IsCore (coreFlags (buildNeigh pts eps) minPts) i := by
  intro i hi
  rw [isCore_coreFlags]
  have hin : i < (buildNeigh pts eps).length := by
    rw [length_buildNeigh]
    exact hlt i hi
  have hget : (buildNeigh pts eps)[i]? = some (buildNeigh pts eps)[i] :=
    List.getElem?_eq_getElem hin
  refine ⟨_, hget, ?_⟩
  have hsub : G.erase i ⊆ ((buildNeigh pts eps)[i]).toFinset := by
    intro j hj
    obtain ⟨hji, hjG⟩ := Finset.mem_erase.mp hj
    have hocc : OccursIn (buildNeigh pts eps) i j :=
      (occursIn_buildNeigh pts eps i j).mpr ⟨fun e => hji e.symm, hpair i hi j hjG
        (fun e => hji e.symm)⟩
    obtain ⟨l, hl, hjl⟩ := hocc
    rw [hget] at hl
    rw [Option.some.inj hl]
    exact List.mem_toFinset.mpr hjl
  have h1 := Finset.card_le_card hsub
  have h2 := List.toFinset_card_le (buildNeigh pts eps)[i]
  have h3 := Finset.card_erase_of_mem hi
  omega

/-- A point with no other point within `eps` is not core when `minPts ≥ 2`, and no
neighbour list holds it. -/
lemma isolated_spec (pts : List Pt) (eps : ℚ) (minPts : Nat) (hm : 2 ≤ minPts) (i : Nat)
    (hiso : ∀ j : Nat, j ≠ i → ¬ Within pts (eps * eps) i j) :
    ¬ IsCore (coreFlags (buildNeigh pts eps) minPts) i ∧
    ∀ p : Nat, ¬ OccursIn (buildNeigh pts eps) p i := by
  have hno : ∀ j : Nat, ¬ OccursIn (buildNeigh pts eps) i j := by
    intro j hocc
    rw [occursIn_buildNeigh] at hocc
    exact hiso j (fun e => hocc.1 e.symm) hocc.2
  constructor
  · rw [isCore_coreFlags]
    rintro ⟨l, hl, hlen⟩
    cases l with
    | nil => simp at hlen; omega
    | cons j js => exact hno j ⟨j :: js, hl, List.mem_cons_self _ _⟩
  · intro p hocc
    exact hno p ((graphOK_buildNeigh pts eps).symm p i hocc)

/-- C11: `runDBSCAN` returns a result in which any two core points within `eps` of each
other have the same label and that label is at least `0`; every group of at least
`minPts` points pairwise within `eps` consists of core points that all carry one label
at least `0`; and, when `minPts ≥ 2`, a point with no other point within `eps` has the
label `-1`. -/
theorem runDBSCAN_core_neighbours_one_cluster (pts : List Pt) (eps : ℚ) (minPts : Nat) :
    ∃ r, runDBSCAN pts eps minPts = some r ∧
      (∀ i j : Nat, r.core[i]? = some true → r.core[j]? = some true →
        Within pts (eps * eps) i j →
        ∃ v : Int, 0 ≤ v ∧ r.labels[i]? = some v ∧ r.labels[j]? = some v) ∧
      (∀ G : Finset Nat, minPts ≤ G.card → (∀ i ∈ G, i < pts.length) →
        (∀ i ∈ G, ∀ j ∈ G, i ≠ j → Within pts (eps * eps) i j) →
        ∃ v : Int, 0 ≤ v ∧ ∀ i ∈ G, r.core[i]? = some true ∧ r.labels[i]? = some v) ∧
      (2 ≤ minPts → ∀ i : Nat, i < pts.length →
        (∀ j : Nat, j ≠ i → ¬ Within pts (eps * eps) i j) →
        r.labels[i]? = some (-1)) := by
  obtain ⟨labels, c, hrun, hloop, hlab⟩ := runDBSCAN_labels_spec pts eps minPts
  have hpair : ∀ i j : Nat, IsCore (coreFlags (buildNeigh pts eps) minPts) i →
      IsCore (coreFlags (buildNeigh pts eps) minPts) j → Within pts (eps * eps) i j →
      ∃ v : Int, 0 ≤ v ∧ labels[i]? = some v ∧ labels[j]? = some v := by
    intro i j hci hcj hw
    obtain ⟨v, hv, hvu⟩ := hlab i (within_lt _ _ _ _ hw).1
    have hv0 := loopInv_core_label _ _ _ _ _ hloop i v hci hv hvu
    by_cases hij : i = j
    · subst hij
      exact ⟨v, hv0, hv, hv⟩
    · have hocc : OccursIn (buildNeigh pts eps) i j :=
        (occursIn_buildNeigh pts eps i j).mpr ⟨hij, hw⟩
      exact ⟨v, hv0, hv, (hloop.closed i v hci hv hvu j hocc).2 hcj⟩
  refine ⟨_, hrun, ?_, ?_, ?_⟩
  · intro i j hi hj hw
    exact hpair i j ((getElem?_true_iff_isCore _ i).mp hi)
      ((getElem?_true_iff_isCore _ j).mp hj) hw
  · intro G hcard hlt hG
    have hcore := group_isCore pts eps minPts G hcard hlt hG
    rcases G.eq_empty_or_nonempty with hempty | ⟨i0, hi0⟩
    · subst hempty
      exact ⟨0, le_refl 0, fun i hi => absurd hi (Finset.not_mem_empty i)⟩
    · obtain ⟨v, hv, hvu⟩ := hlab i0 (hlt i0 hi0)
      have hv0 := loopInv_core_label _ _ _ _ _ hloop i0 v (hcore i0 hi0) hv hvu
      refine ⟨v, hv0, ?_⟩
      intro i hi
      refine ⟨(getElem?_true_iff_isCore _ i).mpr (hcore i hi), ?_⟩
      by_cases hii : i0 = i
      · subst hii
        exact hv
      · have hocc : OccursIn (buildNeigh pts eps) i0 i :=
          (occursIn_buildNeigh pts eps i0 i).mpr ⟨hii, hG i0 hi0 i hi hii⟩
        exact (hloop.closed i0 v (hcore i0 hi0) hv hvu i hocc).2 (hcore i hi)
  · intro hm i hi hiso
    obtain ⟨hnc, hno⟩ := isolated_spec pts eps minPts hm i hiso
    obtain ⟨v, hv, hvu⟩ := hlab i hi
    show labels[i]? = some (-1)
    rcases hloop.range i v hv with h1 | h1 | h1
    · exact absurd h1 hvu
    · rw [hv, h1]
    · rcases hloop.reached i v hv h1.1 with h2 | ⟨p, h2⟩
      · exact absurd h2 hnc
      · exact absurd h2 (hno p)

/-- Witness for C11, Scenario B: with `eps = 5` and `minPts = 3` the three points
mutually within distance `1` are core and carry one cluster label, and the point at
distance `1000` is labelled `-1`. -/
theorem runDBSCAN_core_neighbours_one_cluster_witness :
    ∃ r, runDBSCAN scenarioBPoints 5 3 = some r ∧
      (∃ v : Int, 0 ≤ v ∧ ∀ i ∈ ({0, 1, 2} : Finset Nat),
        r.core[i]? = some true ∧ r.labels[i]? = some v) ∧
      r.labels[3]? = some (-1) := by
  obtain ⟨r, hr, _, hgroup, hiso⟩ :=
    runDBSCAN_core_neighbours_one_cluster scenarioBPoints 5 3
  refine ⟨r, hr, hgroup {0, 1, 2} (by decide) ?_ ?_, hiso (by decide) 3 (by decide) ?_⟩
  · intro i hi
    simp only [Finset.mem_insert, Finset.mem_singleton] at hi
    rcases hi with rfl | rfl | rfl <;> decide
  · intro i hi j hj hij
    simp only [Finset.mem_insert, Finset.mem_singleton] at hi hj
    rcases hi with rfl | rfl | rfl <;> rcases hj with rfl | rfl | rfl <;>
      first
        | exact absurd rfl hij
        | norm_num [Within, scenarioBPoints, dist2]
  · intro j hj hw
    have hlt : j < 4 := (within_lt _ _ _ _ hw).2
    interval_cases j
    · norm_num [Within, scenarioBPoints, dist2] at hw
    · norm_num [Within, scenarioBPoints, dist2] at hw
    · norm_num [Within, scenarioBPoints, dist2] at hw
    · exact hj rfl

end ClusteringPlayground
